import Mathlib

/-!
Verification of the evio event-loop core (Linux reactor path) against its
natural-language specification.  The Go sources are embedded shallowly:
per-connection and per-loop state become Lean structures, the loop transition
functions (loopAccept, loopOpened, loopWrite, loopAction, loopRead,
loopCloseConn, OnEvent, OnFdEvent, conn.Write, serve) become pure Lean
functions over that state, and kernel syscall outcomes and user callbacks are
supplied as explicit inputs.  The internal poller package is not part of the
sources; its operations are modelled from the specification (see the Poll
section below).
-/

namespace Evio

/-! ## Association lists

Go maps with int keys (fd -> conn, and the poller registration set) are
embedded as association lists with first-match lookup.  -/

/-- Lookup in an association list (first match wins, like a Go map with
unique keys). -/
def alLookup {α : Type} : List (Nat × α) → Nat → Option α
  | [], _ => none
  | (k, v) :: rest, fd => if k = fd then some v else alLookup rest fd

/-- Upsert: replace the first binding of the key in place, or append a new
binding at the tail.  Mirrors Go map assignment. -/
def alSet {α : Type} : List (Nat × α) → Nat → α → List (Nat × α)
  | [], fd, v => [(fd, v)]
  | (k, w) :: rest, fd, v =>
      if k = fd then (fd, v) :: rest else (k, w) :: alSet rest fd v

/-- Delete the first binding of the key.  Mirrors Go map delete under the
unique-keys invariant. -/
def alErase {α : Type} : List (Nat × α) → Nat → List (Nat × α)
  | [], _ => []
  | (k, w) :: rest, fd => if k = fd then rest else (k, w) :: alErase rest fd

/-- The keys of an association list, in order. -/
def alKeys {α : Type} (m : List (Nat × α)) : List Nat := m.map Prod.fst

theorem alKeys_nil {α : Type} : alKeys ([] : List (Nat × α)) = [] := rfl

theorem alKeys_cons {α : Type} (a : Nat) (w : α) (tl : List (Nat × α)) :
    alKeys ((a, w) :: tl) = a :: alKeys tl := rfl

theorem alLookup_alSet_self {α : Type} (m : List (Nat × α)) (k : Nat) (v : α) :
    alLookup (alSet m k v) k = some v := by
  induction m with
  | nil => simp [alSet, alLookup]
  | cons hd tl ih =>
      obtain ⟨a, w⟩ := hd
      by_cases h : a = k <;> simp [alSet, alLookup, h, ih]

theorem alLookup_alSet_ne {α : Type} (m : List (Nat × α)) (k k' : Nat) (v : α)
    (h : k ≠ k') : alLookup (alSet m k v) k' = alLookup m k' := by
  induction m with
  | nil => simp [alSet, alLookup, h]
  | cons hd tl ih =>
      obtain ⟨a, w⟩ := hd
      by_cases hk : a = k
      · subst hk
        simp [alSet, alLookup, h]
      · by_cases hk' : a = k'
        · subst hk'
          simp [alSet, alLookup, hk, Ne.symm h]
        · simp [alSet, alLookup, hk, hk', ih]

theorem alLookup_alErase_ne {α : Type} (m : List (Nat × α)) (k k' : Nat)
    (h : k ≠ k') : alLookup (alErase m k) k' = alLookup m k' := by
  induction m with
  | nil => simp [alErase, alLookup]
  | cons hd tl ih =>
      obtain ⟨a, w⟩ := hd
      by_cases hk : a = k
      · subst hk
        simp [alErase, alLookup, h]
      · by_cases hk' : a = k'
        · subst hk'
          simp [alErase, alLookup, hk]
        · simp [alErase, alLookup, hk, hk', ih]

theorem alLookup_eq_none_iff {α : Type} (m : List (Nat × α)) (k : Nat) :
    alLookup m k = none ↔ k ∉ alKeys m := by
  induction m with
  | nil => simp [alLookup, alKeys]
  | cons hd tl ih =>
      obtain ⟨a, w⟩ := hd
      by_cases h : a = k
      · subst h
        simp [alLookup, alKeys_cons]
      · simp [alLookup, alKeys_cons, h, ih, List.mem_cons, Ne.symm h]

theorem alLookup_isSome_of_mem {α : Type} (m : List (Nat × α)) (k : Nat)
    (h : k ∈ alKeys m) : (alLookup m k).isSome := by
  rcases ho : alLookup m k with _ | v
  · exact absurd h ((alLookup_eq_none_iff m k).mp ho)
  · rfl

theorem alErase_sublist {α : Type} (m : List (Nat × α)) (k : Nat) :
    (alErase m k).Sublist m := by
  induction m with
  | nil => simp [alErase]
  | cons hd tl ih =>
      obtain ⟨a, w⟩ := hd
      by_cases h : a = k
      · simp [alErase, h]
      · simp only [alErase, if_neg h]
        exact List.Sublist.cons₂ (a, w) ih

theorem alKeys_nodup_alErase {α : Type} (m : List (Nat × α)) (k : Nat)
    (h : (alKeys m).Nodup) : (alKeys (alErase m k)).Nodup :=
  List.Nodup.sublist (List.Sublist.map Prod.fst (alErase_sublist m k)) h

theorem alLookup_alErase_self {α : Type} (m : List (Nat × α)) (k : Nat)
    (h : (alKeys m).Nodup) : alLookup (alErase m k) k = none := by
  induction m with
  | nil => simp [alErase, alLookup]
  | cons hd tl ih =>
      obtain ⟨a, w⟩ := hd
      rcases List.nodup_cons.mp (by simpa [alKeys_cons] using h) with ⟨hfst, htl⟩
      by_cases hk : a = k
      · subst hk
        simp [alErase]
        exact (alLookup_eq_none_iff tl a).mpr hfst
      · simp [alErase, alLookup, hk, ih htl]

theorem length_alErase_of_mem {α : Type} (m : List (Nat × α)) (k : Nat) (v : α)
    (h : alLookup m k = some v) : (alErase m k).length + 1 = m.length := by
  induction m with
  | nil => simp [alLookup] at h
  | cons hd tl ih =>
      obtain ⟨a, w⟩ := hd
      by_cases hk : a = k
      · simp [alErase, hk]
      · simp [alLookup, hk] at h
        simp [alErase, hk, ih h]

theorem length_alSet_of_mem {α : Type} (m : List (Nat × α)) (k : Nat) (v v0 : α)
    (h : alLookup m k = some v0) : (alSet m k v).length = m.length := by
  induction m with
  | nil => simp [alLookup] at h
  | cons hd tl ih =>
      obtain ⟨a, w⟩ := hd
      by_cases hk : a = k
      · simp [alSet, hk]
      · simp [alLookup, hk] at h
        simp [alSet, hk, ih h]

theorem length_alSet_of_new {α : Type} (m : List (Nat × α)) (k : Nat) (v : α)
    (h : alLookup m k = none) : (alSet m k v).length = m.length + 1 := by
  induction m with
  | nil => simp [alSet]
  | cons hd tl ih =>
      obtain ⟨a, w⟩ := hd
      by_cases hk : a = k
      · simp [alLookup, hk] at h
      · simp [alLookup, hk] at h
        simp [alSet, hk, ih h]

theorem alKeys_alSet_of_mem {α : Type} (m : List (Nat × α)) (k : Nat) (v v0 : α)
    (h : alLookup m k = some v0) : alKeys (alSet m k v) = alKeys m := by
  induction m with
  | nil => simp [alLookup] at h
  | cons hd tl ih =>
      obtain ⟨a, w⟩ := hd
      by_cases hk : a = k
      · subst hk
        simp [alSet, alKeys_cons]
      · simp [alLookup, hk] at h
        simp [alSet, alKeys_cons, hk, ih h]

theorem alKeys_alSet_of_new {α : Type} (m : List (Nat × α)) (k : Nat) (v : α)
    (h : alLookup m k = none) : alKeys (alSet m k v) = alKeys m ++ [k] := by
  induction m with
  | nil => simp [alSet, alKeys]
  | cons hd tl ih =>
      obtain ⟨a, w⟩ := hd
      by_cases hk : a = k
      · simp [alLookup, hk] at h
      · simp [alLookup, hk] at h
        simp [alSet, alKeys_cons, hk, ih h]

theorem alKeys_nodup_alSet {α : Type} (m : List (Nat × α)) (k : Nat) (v : α)
    (h : (alKeys m).Nodup) : (alKeys (alSet m k v)).Nodup := by
  rcases ho : alLookup m k with _ | v0
  · rw [alKeys_alSet_of_new m k v ho]
    refine List.Nodup.append h (List.nodup_singleton k) ?_
    intro a ha hb
    have hak : a = k := List.mem_singleton.mp hb
    rw [hak] at ha
    exact absurd ha ((alLookup_eq_none_iff m k).mp ho)
  · rw [alKeys_alSet_of_mem m k v v0 ho]
    exact h

/-! ## Data model

Embedded from the Go sources.  Byte slices become lists of naturals;
fields that carry only opaque data with no control-flow role (socket
address `sa`, user context `ctx`, local/remote address, and the back
pointer `loop`) are omitted from the `conn` embedding. -/

/-- The user action directive (evio `Action`).  The sources switch on
`None`, `Close` and `Shutdown`; the spec (section 3) states `Detach` is
omitted from this implementation. -/
inductive Action : Type
  | None
  | Close
  | Shutdown
deriving DecidableEq, Repr

/-- Load-balancing policy for accepts (evio `LoadBalance`). -/
inductive LoadBalance : Type
  | Random
  | RoundRobin
  | LeastConnections
deriving DecidableEq, Repr

/-- Poller interest registered for an fd: read-only or read+write. -/
inductive Interest : Type
  | read
  | readWrite
deriving DecidableEq, Repr

/-- User-event tags injected through the wakeup fd (`internal.EventClose`,
`internal.EventTick`, `internal.EventWrite`; the constants live in the
internal package, outside the sources, but their identities are fixed by
their uses in the event handler). -/
inductive EvTag : Type
  | EventClose
  | EventTick
  | EventWrite
deriving DecidableEq, Repr

/-- Per-connection options returned by the Opened callback (evio
`Options`).  `tcpKeepAlive` is a Go duration in nanoseconds. -/
structure Options : Type where
  tcpKeepAlive : Int
  reuseInputBuffer : Bool
deriving DecidableEq, Repr

/-- Per-connection state (Go struct `conn`): fd, outbound write buffer,
reuse-input-buffer flag, opened flag, and next user action. -/
structure Conn : Type where
  fd : Nat
  out : List Nat
  reuse : Bool
  opened : Bool
  action : Action
deriving DecidableEq, Repr

/-- A queued cross-thread write (Go struct `writeEvent`); the target conn
is identified by its fd. -/
structure WriteEvent : Type where
  fd : Nat
  data : List Nat
deriving DecidableEq, Repr

/-- Modelled from the spec: the internal poller (`internal.Poll`, whose
implementation is not among the sources) tracks the registered fds with
their interest (spec section 4.1: AddRead/AddReadWrite register,
ModRead narrows, ModReadWrite widens), a queue of fired user-event tags
(FireEvent), and whether Close has been called. -/
structure Poll : Type where
  regs : List (Nat × Interest)
  fired : List EvTag
  isClosed : Bool
deriving DecidableEq, Repr

/-- Modelled from the spec: register an fd with read-only interest. -/
def Poll.addRead (p : Poll) (fd : Nat) : Poll :=
  { p with regs := alSet p.regs fd Interest.read }

/-- Modelled from the spec: register an fd with read+write interest. -/
def Poll.addReadWrite (p : Poll) (fd : Nat) : Poll :=
  { p with regs := alSet p.regs fd Interest.readWrite }

/-- Modelled from the spec: narrow an fd's interest to read-only. -/
def Poll.modRead (p : Poll) (fd : Nat) : Poll :=
  { p with regs := alSet p.regs fd Interest.read }

/-- Modelled from the spec: widen an fd's interest to read+write. -/
def Poll.modReadWrite (p : Poll) (fd : Nat) : Poll :=
  { p with regs := alSet p.regs fd Interest.readWrite }

/-- Closing an fd removes it from the kernel readiness set; used when a
connection's fd is closed (the Go code relies on this kernel behavior
rather than an explicit Delete). -/
def Poll.removeFd (p : Poll) (fd : Nat) : Poll :=
  { p with regs := alErase p.regs fd }

/-- Modelled from the spec: FireEvent enqueues a tag for delivery on the
next wake (spec section 4.1; delivery MAY coalesce, which this model does
not exercise). -/
def Poll.fireEvent (p : Poll) (t : EvTag) : Poll :=
  { p with fired := p.fired ++ [t] }

/-- Modelled from the spec: Close releases the poller's kernel resources. -/
def Poll.doClose (p : Poll) : Poll :=
  { p with isClosed := true }

/-- The interest currently registered for an fd, if any. -/
def Poll.interest (p : Poll) (fd : Nat) : Option Interest :=
  alLookup p.regs fd

/-- Per-loop state (Go struct `loop`): index, poller, fd-to-connection
map, connection counter (an int32, embedded as Int), and the pending
cross-thread write channel (embedded as a FIFO list; the Go channel is
buffered with capacity 128, a capacity this value model does not bound).
The scratch `packet` buffer carries no control state and is represented
by the read results fed to `loopRead`. -/
structure LoopState : Type where
  idx : Nat
  poll : Poll
  fdconns : List (Nat × Conn)
  count : Int
  wch : List WriteEvent
deriving DecidableEq, Repr

/-- The user callback table (evio `Events`).  Nil-able Go function fields
become `Option`s; callbacks receive the connection value and return their
directives.  `Serving` and the ticker plumbing carry no per-connection
state and are modelled only where the claims need them. -/
structure Events : Type where
  numLoops : Int
  loadBalance : LoadBalance
  openedCb : Option (Conn → List Nat × Options × Action)
  dataCb : Option (Conn → List Nat → List Nat × Action)
  closedCb : Option (Conn → Option Nat → Action)
  tickCb : Option (Unit → Int × Action)

/-- Trace of user-callback invocations performed by a transition.  The
`fresh` flag on a Data call records whether the bytes were copied into a
fresh allocation before the callback (the `!c.reuse` branch in
`loopRead`). -/
inductive CB : Type
  | openedCall (fd : Nat)
  | dataCall (fd : Nat) (input : List Nat) (fresh : Bool)
  | closedCall (fd : Nat) (err : Option Nat)
  | tickCall
deriving DecidableEq, Repr

/-- Error propagated from a handler to the poller wait: the internal
closing sentinel (`errClosing`), or a real error carried as a numeric
errno-style code. -/
inductive LoopErr : Type
  | closing
  | sys (code : Nat)
deriving DecidableEq, Repr

/-- Result of one handler transition: the updated loop state, the
callbacks invoked, and the error (if any) returned to the poller. -/
structure StepRes : Type where
  l : LoopState
  tr : List CB
  err : Option LoopErr
deriving DecidableEq, Repr

/-- Outcome of the non-blocking accept syscall, supplied as an input. -/
inductive AcceptSys : Type
  | ok (nfd : Nat)
  | eagain
  | fail (code : Nat)
deriving DecidableEq, Repr

/-- Outcome of a non-blocking write syscall: `ok n` wrote `n` bytes. -/
inductive WriteSys : Type
  | ok (n : Nat)
  | eagain
  | fail (code : Nat)
deriving DecidableEq, Repr

/-- Outcome of a non-blocking read syscall: `ok bytes` read `bytes`
(empty means a zero-byte read, i.e. EOF). -/
inductive ReadSys : Type
  | ok (bytes : List Nat)
  | eagain
  | fail (code : Nat)
deriving DecidableEq, Repr

/-- The bundle of syscall outcomes an fd-event dispatch may consume. -/
structure SysOracle : Type where
  acceptRes : AcceptSys
  nonblockRes : Option Nat
  kaRes : Option Nat
  writeRes : WriteSys
  readRes : ReadSys
deriving DecidableEq, Repr

/-! ## Loop transitions

Each Go function becomes a pure function from the pre-state (plus syscall
outcomes) to a `StepRes`.  Pointer mutation of a `conn` becomes storing
the updated connection value back into `fdconns` at its fd. -/

/-- `loopCloseConn`: decrement the loop counter, delete the fd from the
map (its kernel close also drops it from the poller set), and invoke the
Closed callback if registered; a `Shutdown` return propagates the closing
sentinel. -/
def loopCloseConn (ev : Events) (l : LoopState) (c : Conn) (err : Option Nat) :
    StepRes :=
  let l1 : LoopState :=
    { l with count := l.count - 1,
             fdconns := alErase l.fdconns c.fd,
             poll := l.poll.removeFd c.fd }
  match ev.closedCb with
  | some f =>
      match f c err with
      | Action.Shutdown => ⟨l1, [CB.closedCall c.fd err], some LoopErr.closing⟩
      | _ => ⟨l1, [CB.closedCall c.fd err], none⟩
  | none => ⟨l1, [], none⟩

/-- Store a connection back into the map and, when its outbound buffer is
empty and its action is None, narrow its interest to read-only — the
shared tail `if len(c.out) == 0 && c.action == None { l.poll.ModRead(c.fd) }`
of `loopOpened`, `loopWrite` and `loopAction`. -/
def storeAndSettle (l : LoopState) (c : Conn) : LoopState :=
  let l1 : LoopState := { l with fdconns := alSet l.fdconns c.fd c }
  if c.out = [] ∧ c.action = Action.None then
    { l1 with poll := l1.poll.modRead c.fd }
  else l1

/-- Store a connection back into the map and, when its outbound buffer is
non-empty or its action is not None, widen its interest to read+write —
the tail `if len(c.out) != 0 || c.action != None { l.poll.ModReadWrite(c.fd) }`
of `loopRead`. -/
def storeAndWiden (l : LoopState) (c : Conn) : LoopState :=
  let l1 : LoopState := { l with fdconns := alSet l.fdconns c.fd c }
  if c.out ≠ [] ∨ c.action ≠ Action.None then
    { l1 with poll := l1.poll.modReadWrite c.fd }
  else l1

/-- The accept tail of `loopAccept`, entered once the load-balancing gate
has passed: non-blocking accept, set the new fd non-blocking, build the
conn, register it read+write and bump the counter.  `EAGAIN` yields
without error; other accept or SetNonblock errors are returned to the
poller. -/
def acceptConn (l : LoopState) (asys : AcceptSys) (nonblockRes : Option Nat) :
    StepRes :=
  match asys with
  | AcceptSys.eagain => ⟨l, [], none⟩
  | AcceptSys.fail code => ⟨l, [], some (LoopErr.sys code)⟩
  | AcceptSys.ok nfd =>
      match nonblockRes with
      | some code => ⟨l, [], some (LoopErr.sys code)⟩
      | none =>
          let c : Conn :=
            { fd := nfd, out := [], reuse := false, opened := false,
              action := Action.None }
          ⟨{ l with fdconns := alSet l.fdconns nfd c,
                    poll := l.poll.addReadWrite nfd,
                    count := l.count + 1 }, [], none⟩

/-- Go's conversion of a `uintptr` (value below 2 to the 64th) to a
signed `int`: values at or above 2 to the 63rd wrap to negatives. -/
def goIntOfUintptr (u : Nat) : Int :=
  if u % 2 ^ 64 < 2 ^ 63 then ((u % 2 ^ 64 : Nat) : Int)
  else ((u % 2 ^ 64 : Nat) : Int) - 2 ^ 64

/-- The round-robin slot computed by `loopAccept`:
`int(atomic.LoadUintptr(&s.accepted)) % len(s.loops)`, with Go's
truncated signed remainder. -/
def goAcceptIdx (accepted : Nat) (numLoops : Nat) : Int :=
  Int.tmod (goIntOfUintptr accepted) (numLoops : Int)

/-- `loopAccept`: when more than one loop is attached, consult the
load-balancing policy.  LeastConnections declines if any other loop has
strictly fewer connections.  RoundRobin declines unless the accepted
counter's slot equals this loop's index, and otherwise increments the
counter (before the accept syscall).  `loopsInfo` carries the (idx,
count) pairs of all the server's loops; the returned Nat is the new value
of the server's accepted counter. -/
def loopAccept (balance : LoadBalance) (loopsInfo : List (Nat × Int))
    (accepted : Nat) (l : LoopState) (asys : AcceptSys)
    (nonblockRes : Option Nat) : Nat × StepRes :=
  if 1 < loopsInfo.length then
    match balance with
    | LoadBalance.LeastConnections =>
        if loopsInfo.any (fun p => decide (p.1 ≠ l.idx) && decide (p.2 < l.count)) then
          (accepted, ⟨l, [], none⟩)
        else
          (accepted, acceptConn l asys nonblockRes)
    | LoadBalance.RoundRobin =>
        if goAcceptIdx accepted loopsInfo.length ≠ (l.idx : Int) then
          (accepted, ⟨l, [], none⟩)
        else
          ((accepted + 1) % 2 ^ 64, acceptConn l asys nonblockRes)
    | LoadBalance.Random =>
        (accepted, acceptConn l asys nonblockRes)
  else
    (accepted, acceptConn l asys nonblockRes)

/-- `loopOpened`: mark the connection opened, invoke the Opened callback
if registered (recording its returned initial bytes, options and action),
attempt TCP keep-alive when requested on a TCP listener — a failure
returns that error to the poller with the connection left in the map —
and otherwise narrow interest to read-only when idle. -/
def loopOpened (ev : Events) (isTCP : Bool) (l : LoopState) (c : Conn)
    (kaRes : Option Nat) : StepRes :=
  let c1 : Conn := { c with opened := true }
  match ev.openedCb with
  | none => ⟨storeAndSettle l c1, [], none⟩
  | some f =>
      let r := f c1
      let out := r.1
      let opts := r.2.1
      let action := r.2.2
      let c2 : Conn := if 0 < out.length then { c1 with out := out } else c1
      let c3 : Conn := { c2 with action := action, reuse := opts.reuseInputBuffer }
      if 0 < opts.tcpKeepAlive ∧ isTCP then
        match kaRes with
        | some code =>
            ⟨{ l with fdconns := alSet l.fdconns c3.fd c3 },
             [CB.openedCall c3.fd], some (LoopErr.sys code)⟩
        | none => ⟨storeAndSettle l c3, [CB.openedCall c3.fd], none⟩
      else ⟨storeAndSettle l c3, [CB.openedCall c3.fd], none⟩

/-- `loopWrite`: one non-blocking write of the outbound buffer.  EAGAIN
leaves everything unchanged; success compacts the buffer to the unwritten
remainder and narrows interest when drained and idle; any other error
closes the connection with that error. -/
def loopWrite (ev : Events) (l : LoopState) (c : Conn) (wres : WriteSys) :
    StepRes :=
  match wres with
  | WriteSys.eagain => ⟨l, [], none⟩
  | WriteSys.fail code => loopCloseConn ev l c (some code)
  | WriteSys.ok n =>
      let c1 : Conn := { c with out := c.out.drop n }
      ⟨storeAndSettle l c1, [], none⟩

/-- `loopAction`: apply the pending action.  `Close` closes the
connection with no error, `Shutdown` returns the closing sentinel, and
the default clears the action to None and narrows interest when idle. -/
def loopAction (ev : Events) (l : LoopState) (c : Conn) : StepRes :=
  match c.action with
  | Action.Close => loopCloseConn ev l c none
  | Action.Shutdown => ⟨l, [], some LoopErr.closing⟩
  | Action.None =>
      let c1 : Conn := { c with action := Action.None }
      ⟨storeAndSettle l c1, [], none⟩

/-- `loopRead`: one non-blocking read into the scratch buffer.  EAGAIN
returns with nothing changed; a zero-byte read closes with a nil error
and any other error closes with that error; otherwise the bytes (copied
to a fresh allocation unless `c.reuse`) are passed to the Data callback,
whose action is recorded and whose returned bytes replace the outbound
buffer when non-empty, after which interest is widened when the
connection is no longer idle. -/
def loopRead (ev : Events) (l : LoopState) (c : Conn) (rres : ReadSys) :
    StepRes :=
  match rres with
  | ReadSys.eagain => ⟨l, [], none⟩
  | ReadSys.fail code => loopCloseConn ev l c (some code)
  | ReadSys.ok bytes =>
      if bytes.length = 0 then loopCloseConn ev l c none
      else
        match ev.dataCb with
        | none => ⟨storeAndWiden l c, [], none⟩
        | some f =>
            let r := f c bytes
            let out := r.1
            let action := r.2
            let c1 : Conn := { c with action := action }
            let c2 : Conn := if 0 < out.length then { c1 with out := out } else c1
            ⟨storeAndWiden l c2, [CB.dataCall c.fd bytes (!c.reuse)], none⟩

/-- `eventHandler.OnEvent`: the Close tag returns the closing sentinel;
the Tick tag invokes the Tick callback (registered whenever the ticker
thread runs) and propagates a Shutdown as the closing sentinel (the delay
sent on the tick channel carries no loop state); the Write tag drains at
most one pending write event, appends its data to the target connection's
outbound buffer and widens that fd's interest.  A write event whose
connection is no longer in the map mutates only an unreachable object in
Go and is a no-op here. -/
def onEvent (ev : Events) (l : LoopState) (tag : EvTag) : StepRes :=
  match tag with
  | EvTag.EventClose => ⟨l, [], some LoopErr.closing⟩
  | EvTag.EventTick =>
      match ev.tickCb with
      | none => ⟨l, [], none⟩
      | some f =>
          match (f ()).2 with
          | Action.Shutdown => ⟨l, [CB.tickCall], some LoopErr.closing⟩
          | _ => ⟨l, [CB.tickCall], none⟩
  | EvTag.EventWrite =>
      match l.wch with
      | [] => ⟨l, [], none⟩
      | we :: rest =>
          match alLookup l.fdconns we.fd with
          | none => ⟨{ l with wch := rest }, [], none⟩
          | some c =>
              let c1 : Conn := { c with out := c.out ++ we.data }
              ⟨{ l with wch := rest,
                        fdconns := alSet l.fdconns we.fd c1,
                        poll := l.poll.modReadWrite we.fd }, [], none⟩

/-- `eventHandler.OnFdEvent`: an fd with no connection in the map (the
listener) accepts; otherwise exactly one of Opened / write / action /
read is dispatched, in that priority order. -/
def onFdEvent (ev : Events) (isTCP : Bool) (balance : LoadBalance)
    (loopsInfo : List (Nat × Int)) (accepted : Nat) (l : LoopState)
    (fd : Nat) (orc : SysOracle) : Nat × StepRes :=
  match alLookup l.fdconns fd with
  | none => loopAccept balance loopsInfo accepted l orc.acceptRes orc.nonblockRes
  | some c =>
      if c.opened = false then
        (accepted, loopOpened ev isTCP l c orc.kaRes)
      else if c.out ≠ [] then
        (accepted, loopWrite ev l c orc.writeRes)
      else if c.action ≠ Action.None then
        (accepted, loopAction ev l c)
      else
        (accepted, loopRead ev l c orc.readRes)

/-- `conn.willWrite`: post the data to the owning loop's pending-writes
channel and fire a Write event at its poller. -/
def connWillWrite (l : LoopState) (c : Conn) (data : List Nat) : LoopState :=
  { l with wch := l.wch ++ [⟨c.fd, data⟩],
           poll := l.poll.fireEvent EvTag.EventWrite }

/-- `conn.Write`: attempt a direct non-blocking write on the fd first; on
EAGAIN queue the whole data, on a partial write queue the unwritten
remainder (both via `willWrite`); any other error is returned to the
caller. -/
def connWrite (l : LoopState) (c : Conn) (data : List Nat) (wres : WriteSys) :
    LoopState × Option Nat :=
  match wres with
  | WriteSys.eagain => (connWillWrite l c data, none)
  | WriteSys.fail code => (l, some code)
  | WriteSys.ok n =>
      if n < data.length then (connWillWrite l c (data.drop n), none)
      else (l, none)

/-- The loop-count computation at the head of `serve`: non-positive
NumLoops means one loop when zero and one per CPU when negative. -/
def computeNumLoops (numLoops : Int) (numCPU : Nat) : Nat :=
  if numLoops ≤ 0 then (if numLoops = 0 then 1 else numCPU)
  else numLoops.toNat

/-- The loop-creation block of `serve`: each loop gets a fresh poller
with the shared listener fd registered read-only, an empty connection
map, a zero counter and an empty write channel. -/
def mkLoops (n : Nat) (lnFd : Nat) : List LoopState :=
  (List.range n).map fun i =>
    { idx := i,
      poll := Poll.addRead ⟨[], [], false⟩ lnFd,
      fdconns := [],
      count := 0,
      wch := [] }

/-- The per-loop part of `serve`'s shutdown sweep: close every connection
remaining in the given snapshot list via `loopCloseConn` with a nil
error, discarding the returned action-derived error as the Go code
does. -/
def closeConnsList (ev : Events) : LoopState → List (Nat × Conn) →
    LoopState × List CB
  | l, [] => (l, [])
  | l, (_, c) :: rest =>
      let r := loopCloseConn ev l c none
      let r2 := closeConnsList ev r.l rest
      (r2.1, r.tr ++ r2.2)

/-- `serve`'s deferred shutdown for one loop: sweep all remaining
connections, then close the poller. -/
def loopShutdown (ev : Events) (l : LoopState) : LoopState × List CB :=
  let r := closeConnsList ev l l.fdconns
  ({ r.1 with poll := r.1.poll.doClose }, r.2)

/-- `serve`'s deferred shutdown across all loops. -/
def serverShutdown (ev : Events) (loops : List LoopState) :
    List (LoopState × List CB) :=
  loops.map (loopShutdown ev)

/-! ## Invariants -/

/-- Loop well-formedness: the counter equals the size of the connection
map, map keys are unique (Go map semantics), and every mapped connection
is stored under its own fd (the code always writes `l.fdconns[c.fd] = c`). -/
def LoopWF (l : LoopState) : Prop :=
  l.count = (l.fdconns.length : Int) ∧ (alKeys l.fdconns).Nodup
  ∧ ∀ fd c, alLookup l.fdconns fd = some c → c.fd = fd

/-- The per-connection interest discipline: an opened, idle connection
(empty outbound buffer, action None) is registered read-only; every other
connection in the map — including a freshly accepted, not-yet-opened one
— is registered read+write. -/
def connInterestOK (l : LoopState) (fd : Nat) (c : Conn) : Prop :=
  if c.opened = true ∧ c.out = [] ∧ c.action = Action.None then
    l.poll.interest fd = some Interest.read
  else
    l.poll.interest fd = some Interest.readWrite

/-- The loop-wide interest invariant over all mapped connections. -/
def interestInv (l : LoopState) : Prop :=
  ∀ fd c, alLookup l.fdconns fd = some c → connInterestOK l fd c

/-! ## Projection lemmas for the store-and-adjust helpers -/

theorem storeAndSettle_fdconns (l : LoopState) (c : Conn) :
    (storeAndSettle l c).fdconns = alSet l.fdconns c.fd c := by
  unfold storeAndSettle
  split <;> rfl

theorem storeAndSettle_count (l : LoopState) (c : Conn) :
    (storeAndSettle l c).count = l.count := by
  unfold storeAndSettle
  split <;> rfl

theorem storeAndWiden_fdconns (l : LoopState) (c : Conn) :
    (storeAndWiden l c).fdconns = alSet l.fdconns c.fd c := by
  unfold storeAndWiden
  split <;> rfl

theorem storeAndWiden_count (l : LoopState) (c : Conn) :
    (storeAndWiden l c).count = l.count := by
  unfold storeAndWiden
  split <;> rfl

/-! ## Transfer lemmas for loop well-formedness -/

theorem LoopWF_of_same (l l' : LoopState) (hWF : LoopWF l)
    (hf : l'.fdconns = l.fdconns) (hc : l'.count = l.count) : LoopWF l' := by
  obtain ⟨h1, h2, h3⟩ := hWF
  refine ⟨?_, ?_, ?_⟩
  · rw [hc, hf]
    exact h1
  · rw [hf]
    exact h2
  · rw [hf]
    exact h3

theorem LoopWF_of_set_mem (l l' : LoopState) (c : Conn) (hWF : LoopWF l)
    (hm : (alLookup l.fdconns c.fd).isSome)
    (hf : l'.fdconns = alSet l.fdconns c.fd c) (hc : l'.count = l.count) :
    LoopWF l' := by
  obtain ⟨h1, h2, h3⟩ := hWF
  obtain ⟨c0, hc0⟩ := Option.isSome_iff_exists.mp hm
  refine ⟨?_, ?_, ?_⟩
  · rw [hc, hf, length_alSet_of_mem l.fdconns c.fd c c0 hc0]
    exact h1
  · rw [hf]
    exact alKeys_nodup_alSet _ _ _ h2
  · intro fd c' hl
    rw [hf] at hl
    by_cases hfd : c.fd = fd
    · subst hfd
      rw [alLookup_alSet_self] at hl
      cases hl
      rfl
    · rw [alLookup_alSet_ne _ _ _ _ hfd] at hl
      exact h3 fd c' hl

theorem LoopWF_of_set_new (l l' : LoopState) (c : Conn) (hWF : LoopWF l)
    (hm : alLookup l.fdconns c.fd = none)
    (hf : l'.fdconns = alSet l.fdconns c.fd c)
    (hc : l'.count = l.count + 1) : LoopWF l' := by
  obtain ⟨h1, h2, h3⟩ := hWF
  refine ⟨?_, ?_, ?_⟩
  · rw [hc, hf, length_alSet_of_new l.fdconns c.fd c hm, h1]
    push_cast
    ring
  · rw [hf]
    exact alKeys_nodup_alSet _ _ _ h2
  · intro fd c' hl
    rw [hf] at hl
    by_cases hfd : c.fd = fd
    · subst hfd
      rw [alLookup_alSet_self] at hl
      cases hl
      rfl
    · rw [alLookup_alSet_ne _ _ _ _ hfd] at hl
      exact h3 fd c' hl

theorem LoopWF_of_erase (l l' : LoopState) (k : Nat) (hWF : LoopWF l)
    (hm : (alLookup l.fdconns k).isSome)
    (hf : l'.fdconns = alErase l.fdconns k)
    (hc : l'.count = l.count - 1) : LoopWF l' := by
  obtain ⟨h1, h2, h3⟩ := hWF
  obtain ⟨c0, hc0⟩ := Option.isSome_iff_exists.mp hm
  have hlen := length_alErase_of_mem l.fdconns k c0 hc0
  refine ⟨?_, ?_, ?_⟩
  · rw [hc, hf, h1, ← hlen]
    push_cast
    ring
  · rw [hf]
    exact alKeys_nodup_alErase _ _ h2
  · intro fd c' hl
    rw [hf] at hl
    by_cases hfd : k = fd
    · subst hfd
      rw [alLookup_alErase_self _ _ h2] at hl
      cases hl
    · rw [alLookup_alErase_ne _ _ _ hfd] at hl
      exact h3 fd c' hl

/-! ## Shared helper lemmas about closing a connection -/

theorem loopCloseConn_state (ev : Events) (l : LoopState) (c : Conn)
    (e : Option Nat) :
    (loopCloseConn ev l c e).l
      = { l with count := l.count - 1,
                 fdconns := alErase l.fdconns c.fd,
                 poll := l.poll.removeFd c.fd } := by
  unfold loopCloseConn
  rcases ev.closedCb with _ | f
  · rfl
  · rcases hfc : f c e <;> simp [hfc]

theorem loopCloseConn_tr (ev : Events) (l : LoopState) (c : Conn)
    (e : Option Nat) (f : Conn → Option Nat → Action)
    (hf : ev.closedCb = some f) :
    (loopCloseConn ev l c e).tr = [CB.closedCall c.fd e] := by
  rcases hfc : f c e <;> simp [loopCloseConn, hf, hfc]

/-! ## Per-transition well-formedness lemmas -/

theorem LoopWF_loopCloseConn (ev : Events) (l : LoopState) (c : Conn)
    (e : Option Nat) (hWF : LoopWF l)
    (hm : (alLookup l.fdconns c.fd).isSome) :
    LoopWF (loopCloseConn ev l c e).l := by
  refine LoopWF_of_erase l _ c.fd hWF hm ?_ ?_ <;> rw [loopCloseConn_state]

theorem LoopWF_storeAndSettle (l : LoopState) (c : Conn) (hWF : LoopWF l)
    (hm : (alLookup l.fdconns c.fd).isSome) : LoopWF (storeAndSettle l c) :=
  LoopWF_of_set_mem l _ c hWF hm (storeAndSettle_fdconns l c)
    (storeAndSettle_count l c)

theorem LoopWF_storeAndWiden (l : LoopState) (c : Conn) (hWF : LoopWF l)
    (hm : (alLookup l.fdconns c.fd).isSome) : LoopWF (storeAndWiden l c) :=
  LoopWF_of_set_mem l _ c hWF hm (storeAndWiden_fdconns l c)
    (storeAndWiden_count l c)

/-- Shape of `loopOpened`: it either stores an updated, opened connection
at the same fd via the settle helper (all success paths), or — exactly on
the keep-alive error path, where a non-none error is returned — stores it
directly with the poller untouched. -/
theorem loopOpened_shape (ev : Events) (isTCP : Bool) (l : LoopState)
    (c : Conn) (ka : Option Nat) :
    (∃ c' : Conn, c'.fd = c.fd ∧ c'.opened = true ∧
      (loopOpened ev isTCP l c ka).l = storeAndSettle l c')
    ∨ (∃ c' : Conn, c'.fd = c.fd ∧ c'.opened = true ∧
      (loopOpened ev isTCP l c ka).l
        = { l with fdconns := alSet l.fdconns c.fd c' }
      ∧ (loopOpened ev isTCP l c ka).err ≠ none) := by
  rcases hcb : ev.openedCb with _ | f
  · exact Or.inl ⟨{ c with opened := true }, rfl, rfl, by simp [loopOpened, hcb]⟩
  · by_cases hlen : 0 < (f { c with opened := true }).1.length <;>
      by_cases hcond : 0 < (f { c with opened := true }).2.1.tcpKeepAlive
        ∧ isTCP = true <;>
      rcases ka with _ | code
    · exact Or.inl ⟨⟨c.fd, (f { c with opened := true }).1,
        (f { c with opened := true }).2.1.reuseInputBuffer, true,
        (f { c with opened := true }).2.2⟩, rfl, rfl,
        by simp [loopOpened, hcb, hlen, hcond]⟩
    · exact Or.inr ⟨⟨c.fd, (f { c with opened := true }).1,
        (f { c with opened := true }).2.1.reuseInputBuffer, true,
        (f { c with opened := true }).2.2⟩, rfl, rfl,
        by simp [loopOpened, hcb, hlen, hcond],
        by simp [loopOpened, hcb, hlen, hcond]⟩
    · exact Or.inl ⟨⟨c.fd, (f { c with opened := true }).1,
        (f { c with opened := true }).2.1.reuseInputBuffer, true,
        (f { c with opened := true }).2.2⟩, rfl, rfl,
        by simp [loopOpened, hcb, hlen, hcond]⟩
    · exact Or.inl ⟨⟨c.fd, (f { c with opened := true }).1,
        (f { c with opened := true }).2.1.reuseInputBuffer, true,
        (f { c with opened := true }).2.2⟩, rfl, rfl,
        by simp [loopOpened, hcb, hlen, hcond]⟩
    · exact Or.inl ⟨⟨c.fd, c.out,
        (f { c with opened := true }).2.1.reuseInputBuffer, true,
        (f { c with opened := true }).2.2⟩, rfl, rfl,
        by simp [loopOpened, hcb, hlen, hcond]⟩
    · exact Or.inr ⟨⟨c.fd, c.out,
        (f { c with opened := true }).2.1.reuseInputBuffer, true,
        (f { c with opened := true }).2.2⟩, rfl, rfl,
        by simp [loopOpened, hcb, hlen, hcond],
        by simp [loopOpened, hcb, hlen, hcond]⟩
    · exact Or.inl ⟨⟨c.fd, c.out,
        (f { c with opened := true }).2.1.reuseInputBuffer, true,
        (f { c with opened := true }).2.2⟩, rfl, rfl,
        by simp [loopOpened, hcb, hlen, hcond]⟩
    · exact Or.inl ⟨⟨c.fd, c.out,
        (f { c with opened := true }).2.1.reuseInputBuffer, true,
        (f { c with opened := true }).2.2⟩, rfl, rfl,
        by simp [loopOpened, hcb, hlen, hcond]⟩

theorem LoopWF_acceptConn (l : LoopState) (asys : AcceptSys)
    (nb : Option Nat) (hWF : LoopWF l)
    (hfresh : ∀ nfd, asys = AcceptSys.ok nfd → alLookup l.fdconns nfd = none) :
    LoopWF (acceptConn l asys nb).l := by
  rcases asys with nfd | _ | code
  · rcases nb with _ | code
    · exact LoopWF_of_set_new l _ ⟨nfd, [], false, false, Action.None⟩ hWF
        (hfresh nfd rfl) rfl rfl
    · exact hWF
  · exact hWF
  · exact hWF

theorem LoopWF_loopAccept (balance : LoadBalance)
    (loopsInfo : List (Nat × Int)) (accepted : Nat) (l : LoopState)
    (asys : AcceptSys) (nb : Option Nat) (hWF : LoopWF l)
    (hfresh : ∀ nfd, asys = AcceptSys.ok nfd → alLookup l.fdconns nfd = none) :
    LoopWF (loopAccept balance loopsInfo accepted l asys nb).2.l := by
  unfold loopAccept
  by_cases hn : 1 < loopsInfo.length
  · rw [if_pos hn]
    rcases balance
    · exact LoopWF_acceptConn l asys nb hWF hfresh
    · show LoopWF (if goAcceptIdx accepted loopsInfo.length ≠ (l.idx : Int)
          then (accepted, (⟨l, [], none⟩ : StepRes))
          else ((accepted + 1) % 2 ^ 64, acceptConn l asys nb)).2.l
      by_cases hg : goAcceptIdx accepted loopsInfo.length ≠ (l.idx : Int)
      · rw [if_pos hg]
        exact hWF
      · rw [if_neg hg]
        exact LoopWF_acceptConn l asys nb hWF hfresh
    · show LoopWF (if (loopsInfo.any fun p =>
            decide (p.1 ≠ l.idx) && decide (p.2 < l.count)) = true
          then (accepted, (⟨l, [], none⟩ : StepRes))
          else (accepted, acceptConn l asys nb)).2.l
      by_cases hg : (loopsInfo.any fun p =>
          decide (p.1 ≠ l.idx) && decide (p.2 < l.count)) = true
      · rw [if_pos hg]
        exact hWF
      · rw [if_neg hg]
        exact LoopWF_acceptConn l asys nb hWF hfresh
  · rw [if_neg hn]
    exact LoopWF_acceptConn l asys nb hWF hfresh

theorem LoopWF_loopOpened (ev : Events) (isTCP : Bool) (l : LoopState)
    (c : Conn) (ka : Option Nat) (hWF : LoopWF l)
    (hm : (alLookup l.fdconns c.fd).isSome) :
    LoopWF (loopOpened ev isTCP l c ka).l := by
  rcases loopOpened_shape ev isTCP l c ka with
    ⟨c', hfd, _, heq⟩ | ⟨c', hfd, _, heq, _⟩
  · rw [heq]
    refine LoopWF_storeAndSettle l c' hWF ?_
    rw [hfd]
    exact hm
  · refine LoopWF_of_set_mem l _ c' hWF ?_ ?_ ?_
    · rw [hfd]
      exact hm
    · rw [heq, hfd]
    · rw [heq]

theorem LoopWF_loopWrite (ev : Events) (l : LoopState) (c : Conn)
    (wres : WriteSys) (hWF : LoopWF l)
    (hm : (alLookup l.fdconns c.fd).isSome) :
    LoopWF (loopWrite ev l c wres).l := by
  rcases wres with n | _ | code
  · exact LoopWF_storeAndSettle l { c with out := c.out.drop n } hWF hm
  · exact hWF
  · exact LoopWF_loopCloseConn ev l c (some code) hWF hm

theorem LoopWF_loopAction (ev : Events) (l : LoopState) (c : Conn)
    (hWF : LoopWF l) (hm : (alLookup l.fdconns c.fd).isSome) :
    LoopWF (loopAction ev l c).l := by
  rcases ha : c.action
  case None =>
    simp only [loopAction, ha]
    exact LoopWF_storeAndSettle l { c with action := Action.None } hWF hm
  case Close =>
    simp only [loopAction, ha]
    exact LoopWF_loopCloseConn ev l c none hWF hm
  case Shutdown =>
    simp only [loopAction, ha]
    exact hWF

theorem LoopWF_loopRead (ev : Events) (l : LoopState) (c : Conn)
    (rres : ReadSys) (hWF : LoopWF l)
    (hm : (alLookup l.fdconns c.fd).isSome) :
    LoopWF (loopRead ev l c rres).l := by
  rcases rres with bytes | _ | code
  · by_cases hb : bytes.length = 0
    · simp only [loopRead, hb, if_true]
      exact LoopWF_loopCloseConn ev l c none hWF hm
    · simp only [loopRead, hb, if_false]
      rcases hcb : ev.dataCb with _ | f
      · exact LoopWF_storeAndWiden l c hWF hm
      · by_cases hlen : 0 < (f c bytes).1.length <;>
          simp only [hlen, if_true, if_false] <;>
          exact LoopWF_storeAndWiden l _ hWF hm
  · exact hWF
  · exact LoopWF_loopCloseConn ev l c (some code) hWF hm

theorem LoopWF_onEvent (ev : Events) (l : LoopState) (tag : EvTag)
    (hWF : LoopWF l) : LoopWF (onEvent ev l tag).l := by
  rcases tag
  case EventClose => exact hWF
  case EventTick =>
    rcases hcb : ev.tickCb with _ | f
    · simp only [onEvent, hcb]
      exact hWF
    · rcases ha : (f ()).2 <;> simp only [onEvent, hcb, ha] <;> exact hWF
  case EventWrite =>
    rcases hw : l.wch with _ | ⟨we, rest⟩
    · simp only [onEvent, hw]
      exact hWF
    · simp only [onEvent, hw]
      rcases hc0 : alLookup l.fdconns we.fd with _ | c0
      · simp only [hc0]
        exact LoopWF_of_same l _ hWF rfl rfl
      · simp only [hc0]
        have hkey : c0.fd = we.fd := hWF.2.2 we.fd c0 hc0
        refine LoopWF_of_set_mem l _ { c0 with out := c0.out ++ we.data }
          hWF ?_ ?_ rfl
        · show (alLookup l.fdconns c0.fd).isSome
          rw [hkey, hc0]
          rfl
        · show alSet l.fdconns we.fd _ = alSet l.fdconns c0.fd _
          rw [hkey]

theorem LoopWF_onFdEvent (ev : Events) (isTCP : Bool) (balance : LoadBalance)
    (loopsInfo : List (Nat × Int)) (accepted : Nat) (l : LoopState)
    (fd : Nat) (orc : SysOracle) (hWF : LoopWF l)
    (hfresh : ∀ nfd, orc.acceptRes = AcceptSys.ok nfd →
      alLookup l.fdconns nfd = none) :
    LoopWF (onFdEvent ev isTCP balance loopsInfo accepted l fd orc).2.l := by
  unfold onFdEvent
  rcases hl : alLookup l.fdconns fd with _ | c
  · exact LoopWF_loopAccept balance loopsInfo accepted l orc.acceptRes
      orc.nonblockRes hWF hfresh
  · have hkey : c.fd = fd := hWF.2.2 fd c hl
    have hm : (alLookup l.fdconns c.fd).isSome := by
      rw [hkey, hl]
      rfl
    show LoopWF (if c.opened = false
        then (accepted, loopOpened ev isTCP l c orc.kaRes)
        else if c.out ≠ [] then (accepted, loopWrite ev l c orc.writeRes)
        else if c.action ≠ Action.None then (accepted, loopAction ev l c)
        else (accepted, loopRead ev l c orc.readRes)).2.l
    by_cases hop : c.opened = false
    · rw [if_pos hop]
      exact LoopWF_loopOpened ev isTCP l c orc.kaRes hWF hm
    · rw [if_neg hop]
      by_cases hout : c.out = []
      · rw [if_neg (fun hc => hc hout)]
        by_cases hact : c.action = Action.None
        · rw [if_neg (fun hc => hc hact)]
          exact LoopWF_loopRead ev l c orc.readRes hWF hm
        · rw [if_pos hact]
          exact LoopWF_loopAction ev l c hWF hm
      · rw [if_pos hout]
        exact LoopWF_loopWrite ev l c orc.writeRes hWF hm

/-! ## Interest-invariant preservation lemmas -/

theorem storeAndSettle_poll_pos (l : LoopState) (c : Conn)
    (h : c.out = [] ∧ c.action = Action.None) :
    (storeAndSettle l c).poll = l.poll.modRead c.fd := by
  unfold storeAndSettle
  rw [if_pos h]

theorem storeAndSettle_poll_neg (l : LoopState) (c : Conn)
    (h : ¬(c.out = [] ∧ c.action = Action.None)) :
    (storeAndSettle l c).poll = l.poll := by
  unfold storeAndSettle
  rw [if_neg h]

theorem storeAndWiden_poll_pos (l : LoopState) (c : Conn)
    (h : c.out ≠ [] ∨ c.action ≠ Action.None) :
    (storeAndWiden l c).poll = l.poll.modReadWrite c.fd := by
  unfold storeAndWiden
  rw [if_pos h]

theorem storeAndWiden_poll_neg (l : LoopState) (c : Conn)
    (h : ¬(c.out ≠ [] ∨ c.action ≠ Action.None)) :
    (storeAndWiden l c).poll = l.poll := by
  unfold storeAndWiden
  rw [if_neg h]

/-- Local-update principle for the interest invariant: a step that
touches at most one fd in both the map and the poller preserves the
invariant provided the touched fd is fine afterwards. -/
theorem interestInv_update (l l' : LoopState) (k : Nat)
    (hInv : interestInv l)
    (hconns : ∀ fd, fd ≠ k → alLookup l'.fdconns fd = alLookup l.fdconns fd)
    (hpoll : ∀ fd, fd ≠ k → l'.poll.interest fd = l.poll.interest fd)
    (hk : ∀ c', alLookup l'.fdconns k = some c' → connInterestOK l' k c') :
    interestInv l' := by
  intro fd c' hl
  by_cases hfd : fd = k
  · subst hfd
    exact hk c' hl
  · rw [hconns fd hfd] at hl
    have h2 := hInv fd c' hl
    unfold connInterestOK at h2 ⊢
    rw [hpoll fd hfd]
    exact h2

theorem interestInv_loopCloseConn (ev : Events) (l : LoopState) (c : Conn)
    (e : Option Nat) (hn : (alKeys l.fdconns).Nodup)
    (hInv : interestInv l) : interestInv (loopCloseConn ev l c e).l := by
  refine interestInv_update l _ c.fd hInv ?_ ?_ ?_
  · intro fd hfd
    rw [loopCloseConn_state]
    exact alLookup_alErase_ne _ _ _ (fun hc => hfd hc.symm)
  · intro fd hfd
    rw [loopCloseConn_state]
    show alLookup (alErase l.poll.regs c.fd) fd = alLookup l.poll.regs fd
    exact alLookup_alErase_ne _ _ _ (fun hc => hfd hc.symm)
  · intro c' hl
    rw [loopCloseConn_state] at hl
    change alLookup (alErase l.fdconns c.fd) c.fd = some c' at hl
    rw [alLookup_alErase_self _ _ hn] at hl
    cases hl

theorem interestInv_storeAndSettle (l : LoopState) (c cpre : Conn)
    (hInv : interestInv l)
    (hpre : alLookup l.fdconns c.fd = some cpre)
    (hop : c.opened = true)
    (hbusy : ¬(c.out = [] ∧ c.action = Action.None) →
      ¬(cpre.opened = true ∧ cpre.out = [] ∧ cpre.action = Action.None)) :
    interestInv (storeAndSettle l c) := by
  refine interestInv_update l _ c.fd hInv ?_ ?_ ?_
  · intro fd hfd
    rw [storeAndSettle_fdconns]
    exact alLookup_alSet_ne _ _ _ _ (fun hc => hfd hc.symm)
  · intro fd hfd
    by_cases hidle : c.out = [] ∧ c.action = Action.None
    · rw [storeAndSettle_poll_pos l c hidle]
      exact alLookup_alSet_ne _ _ _ _ (fun hc => hfd hc.symm)
    · rw [storeAndSettle_poll_neg l c hidle]
  · intro c' hl
    rw [storeAndSettle_fdconns, alLookup_alSet_self] at hl
    cases hl
    unfold connInterestOK
    by_cases hidle : c.out = [] ∧ c.action = Action.None
    · rw [if_pos ⟨hop, hidle.1, hidle.2⟩, storeAndSettle_poll_pos l c hidle]
      exact alLookup_alSet_self _ _ _
    · rw [if_neg (fun hc => hidle ⟨hc.2.1, hc.2.2⟩),
        storeAndSettle_poll_neg l c hidle]
      have h2 := hInv c.fd cpre hpre
      unfold connInterestOK at h2
      rw [if_neg (hbusy hidle)] at h2
      exact h2

theorem interestInv_storeAndWiden (l : LoopState) (c cpre : Conn)
    (hInv : interestInv l)
    (hpre : alLookup l.fdconns c.fd = some cpre)
    (hop : c.opened = true)
    (hidlepre : cpre.opened = true ∧ cpre.out = [] ∧
      cpre.action = Action.None) :
    interestInv (storeAndWiden l c) := by
  refine interestInv_update l _ c.fd hInv ?_ ?_ ?_
  · intro fd hfd
    rw [storeAndWiden_fdconns]
    exact alLookup_alSet_ne _ _ _ _ (fun hc => hfd hc.symm)
  · intro fd hfd
    by_cases hbusy : c.out ≠ [] ∨ c.action ≠ Action.None
    · rw [storeAndWiden_poll_pos l c hbusy]
      exact alLookup_alSet_ne _ _ _ _ (fun hc => hfd hc.symm)
    · rw [storeAndWiden_poll_neg l c hbusy]
  · intro c' hl
    rw [storeAndWiden_fdconns, alLookup_alSet_self] at hl
    cases hl
    unfold connInterestOK
    by_cases hbusy : c.out ≠ [] ∨ c.action ≠ Action.None
    · have hni : ¬(c.opened = true ∧ c.out = [] ∧ c.action = Action.None) := by
        intro hc
        rcases hbusy with hb | hb
        · exact hb hc.2.1
        · exact hb hc.2.2
      rw [if_neg hni, storeAndWiden_poll_pos l c hbusy]
      exact alLookup_alSet_self _ _ _
    · push_neg at hbusy
      rw [if_pos ⟨hop, hbusy.1, hbusy.2⟩,
        storeAndWiden_poll_neg l c (by
          intro hc
          rcases hc with hb | hb
          · exact hb hbusy.1
          · exact hb hbusy.2)]
      have h2 := hInv c.fd cpre hpre
      unfold connInterestOK at h2
      rw [if_pos hidlepre] at h2
      exact h2

theorem interestInv_acceptConn (l : LoopState) (asys : AcceptSys)
    (nb : Option Nat) (hInv : interestInv l) :
    interestInv (acceptConn l asys nb).l := by
  rcases asys with nfd | _ | code
  · rcases nb with _ | code
    · refine interestInv_update l _ nfd hInv ?_ ?_ ?_
      · intro fd hfd
        show alLookup (alSet l.fdconns nfd _) fd = alLookup l.fdconns fd
        exact alLookup_alSet_ne _ _ _ _ (fun hc => hfd hc.symm)
      · intro fd hfd
        show alLookup (alSet l.poll.regs nfd _) fd = alLookup l.poll.regs fd
        exact alLookup_alSet_ne _ _ _ _ (fun hc => hfd hc.symm)
      · intro c' hl
        change alLookup (alSet l.fdconns nfd
          (⟨nfd, [], false, false, Action.None⟩ : Conn)) nfd = some c' at hl
        rw [alLookup_alSet_self] at hl
        cases hl
        unfold connInterestOK
        rw [if_neg (by intro hc; cases hc.1)]
        exact alLookup_alSet_self _ _ _
    · exact hInv
  · exact hInv
  · exact hInv

theorem interestInv_loopAccept (balance : LoadBalance)
    (loopsInfo : List (Nat × Int)) (accepted : Nat) (l : LoopState)
    (asys : AcceptSys) (nb : Option Nat) (hInv : interestInv l) :
    interestInv (loopAccept balance loopsInfo accepted l asys nb).2.l := by
  unfold loopAccept
  by_cases hn : 1 < loopsInfo.length
  · rw [if_pos hn]
    rcases balance
    · exact interestInv_acceptConn l asys nb hInv
    · show interestInv (if goAcceptIdx accepted loopsInfo.length ≠ (l.idx : Int)
          then (accepted, (⟨l, [], none⟩ : StepRes))
          else ((accepted + 1) % 2 ^ 64, acceptConn l asys nb)).2.l
      by_cases hg : goAcceptIdx accepted loopsInfo.length ≠ (l.idx : Int)
      · rw [if_pos hg]
        exact hInv
      · rw [if_neg hg]
        exact interestInv_acceptConn l asys nb hInv
    · show interestInv (if (loopsInfo.any fun p =>
            decide (p.1 ≠ l.idx) && decide (p.2 < l.count)) = true
          then (accepted, (⟨l, [], none⟩ : StepRes))
          else (accepted, acceptConn l asys nb)).2.l
      by_cases hg : (loopsInfo.any fun p =>
          decide (p.1 ≠ l.idx) && decide (p.2 < l.count)) = true
      · rw [if_pos hg]
        exact hInv
      · rw [if_neg hg]
        exact interestInv_acceptConn l asys nb hInv
  · rw [if_neg hn]
    exact interestInv_acceptConn l asys nb hInv

/-! ## Claim theorems -/

/-- C3: the number of loops `serve` creates is exactly one when NumLoops
is 0, one per CPU when NumLoops is negative, and exactly NumLoops when it
is positive. -/
theorem serve_loop_count (ev : Events) (numCPU lnFd : Nat) :
    (ev.numLoops = 0 →
      (mkLoops (computeNumLoops ev.numLoops numCPU) lnFd).length = 1)
    ∧ (ev.numLoops < 0 →
      (mkLoops (computeNumLoops ev.numLoops numCPU) lnFd).length = numCPU)
    ∧ (∀ n : Nat, 0 < n → ev.numLoops = (n : Int) →
      (mkLoops (computeNumLoops ev.numLoops numCPU) lnFd).length = n) := by
  have hlen : ∀ m : Nat, (mkLoops m lnFd).length = m := by
    intro m
    simp [mkLoops]
  refine ⟨fun h0 => ?_, fun hneg => ?_, fun n hn hpos => ?_⟩
  · rw [hlen, h0]
    simp [computeNumLoops]
  · rw [hlen]
    have h1 : ev.numLoops ≤ 0 := le_of_lt hneg
    have h2 : ev.numLoops ≠ 0 := ne_of_lt hneg
    simp [computeNumLoops, h1, h2]
  · rw [hlen, hpos]
    have h1 : ¬ ((n : Int) ≤ 0) := by exact_mod_cast not_le.mpr (by exact_mod_cast hn)
    simp [computeNumLoops, h1]

/-- C3 witness: concrete evaluations with numCPU = 4 — NumLoops 0 gives
one loop, NumLoops -1 gives 4 loops, NumLoops 5 gives 5 loops. -/
theorem serve_loop_count_witness :
    (mkLoops (computeNumLoops 0 4) 9).length = 1
    ∧ (mkLoops (computeNumLoops (-1) 4) 9).length = 4
    ∧ (mkLoops (computeNumLoops 5 4) 9).length = 5 :=
  ⟨(serve_loop_count ⟨0, LoadBalance.Random, none, none, none, none⟩ 4 9).1 rfl,
   (serve_loop_count ⟨-1, LoadBalance.Random, none, none, none, none⟩ 4 9).2.1
     (by decide),
   (serve_loop_count ⟨5, LoadBalance.Random, none, none, none, none⟩ 4 9).2.2
     5 (by decide) rfl⟩

/-- C4: `OnFdEvent` selects exactly one transition, in priority order: an
fd absent from the map accepts; else an unopened connection runs Opened;
else a non-empty outbound buffer attempts a write; else a pending action
is applied; otherwise a read is attempted. -/
theorem onFdEvent_priority (ev : Events) (isTCP : Bool)
    (balance : LoadBalance) (loopsInfo : List (Nat × Int)) (accepted : Nat)
    (l : LoopState) (fd : Nat) (orc : SysOracle) :
    (alLookup l.fdconns fd = none →
      onFdEvent ev isTCP balance loopsInfo accepted l fd orc
        = loopAccept balance loopsInfo accepted l orc.acceptRes orc.nonblockRes)
    ∧ (∀ c, alLookup l.fdconns fd = some c → c.opened = false →
      onFdEvent ev isTCP balance loopsInfo accepted l fd orc
        = (accepted, loopOpened ev isTCP l c orc.kaRes))
    ∧ (∀ c, alLookup l.fdconns fd = some c → c.opened = true → c.out ≠ [] →
      onFdEvent ev isTCP balance loopsInfo accepted l fd orc
        = (accepted, loopWrite ev l c orc.writeRes))
    ∧ (∀ c, alLookup l.fdconns fd = some c → c.opened = true → c.out = [] →
        c.action ≠ Action.None →
      onFdEvent ev isTCP balance loopsInfo accepted l fd orc
        = (accepted, loopAction ev l c))
    ∧ (∀ c, alLookup l.fdconns fd = some c → c.opened = true → c.out = [] →
        c.action = Action.None →
      onFdEvent ev isTCP balance loopsInfo accepted l fd orc
        = (accepted, loopRead ev l c orc.readRes)) := by
  refine ⟨fun h => ?_, fun c h h1 => ?_, fun c h h1 h2 => ?_,
      fun c h h1 h2 h3 => ?_, fun c h h1 h2 h3 => ?_⟩
  · simp [onFdEvent, h]
  · simp [onFdEvent, h, h1]
  · simp [onFdEvent, h, h1, h2]
  · simp [onFdEvent, h, h1, h2, h3]
  · simp [onFdEvent, h, h1, h2, h3]

/-- C4 witness: a loop whose map holds only an opened, idle connection at
fd 5 dispatches an event on fd 5 to the read transition. -/
theorem onFdEvent_priority_witness :
    onFdEvent ⟨0, LoadBalance.Random, none, none, none, none⟩ false
        LoadBalance.Random [(0, 1)] 0
        ⟨0, ⟨[(5, Interest.read)], [], false⟩,
          [(5, ⟨5, [], false, true, Action.None⟩)], 1, []⟩ 5
        ⟨AcceptSys.eagain, none, none, WriteSys.eagain, ReadSys.eagain⟩
      = (0, loopRead ⟨0, LoadBalance.Random, none, none, none, none⟩
          ⟨0, ⟨[(5, Interest.read)], [], false⟩,
            [(5, ⟨5, [], false, true, Action.None⟩)], 1, []⟩
          ⟨5, [], false, true, Action.None⟩ ReadSys.eagain) :=
  (onFdEvent_priority ⟨0, LoadBalance.Random, none, none, none, none⟩ false
      LoadBalance.Random [(0, 1)] 0
      ⟨0, ⟨[(5, Interest.read)], [], false⟩,
        [(5, ⟨5, [], false, true, Action.None⟩)], 1, []⟩ 5
      ⟨AcceptSys.eagain, none, none, WriteSys.eagain, ReadSys.eagain⟩).2.2.2.2
    ⟨5, [], false, true, Action.None⟩ rfl rfl rfl rfl

/-- With the accepted counter below 2 to the 63rd, the Go slot
computation reduces to the natural remainder of the counter by the loop
count. -/
theorem goAcceptIdx_small (accepted numLoops : Nat) (h : accepted < 2 ^ 63) :
    goAcceptIdx accepted numLoops = ((accepted % numLoops : Nat) : Int) := by
  have h64 : accepted % 2 ^ 64 = accepted :=
    Nat.mod_eq_of_lt (lt_trans h (by norm_num))
  unfold goAcceptIdx goIntOfUintptr
  rw [h64]
  rw [if_pos h]
  rfl

/-- C1 counterexample: under RoundRobin with two loops, loop 0 with a
matching slot (accepted = 0) whose accept syscall returns EAGAIN still
increments the accepted counter from 0 to 1, although no accept succeeded
and the loop state is unchanged — refuting "the accepted counter is
atomically incremented exactly when an accept succeeds". -/
theorem roundRobin_incr_without_accept_cex :
    (loopAccept LoadBalance.RoundRobin [(0, 0), (1, 0)] 0
        ⟨0, ⟨[(9, Interest.read)], [], false⟩, [], 0, []⟩
        AcceptSys.eagain none).1 = 1
    ∧ (loopAccept LoadBalance.RoundRobin [(0, 0), (1, 0)] 0
        ⟨0, ⟨[(9, Interest.read)], [], false⟩, [], 0, []⟩
        AcceptSys.eagain none).2
      = ⟨⟨0, ⟨[(9, Interest.read)], [], false⟩, [], 0, []⟩, [], none⟩ := by
  constructor <;> rfl

/-- C1 (amended): under RoundRobin with more than one loop (and the
counter below 2 to the 63rd, where the uintptr-to-int slot computation is
exact), a loop whose index differs from the counter's slot leaves the
counter unchanged and does not accept; a loop whose index matches
increments the counter (modulo 2 to the 64th) before the accept syscall
— regardless of the accept's outcome — and then proceeds to the accept,
which on success registers the new connection. -/
theorem roundRobin_gate (loopsInfo : List (Nat × Int)) (accepted : Nat)
    (l : LoopState) (asys : AcceptSys) (nb : Option Nat)
    (hN : 1 < loopsInfo.length) (hacc : accepted < 2 ^ 63) :
    (accepted % loopsInfo.length ≠ l.idx →
      loopAccept LoadBalance.RoundRobin loopsInfo accepted l asys nb
        = (accepted, ⟨l, [], none⟩))
    ∧ (accepted % loopsInfo.length = l.idx →
      loopAccept LoadBalance.RoundRobin loopsInfo accepted l asys nb
        = ((accepted + 1) % 2 ^ 64, acceptConn l asys nb))
    ∧ (∀ nfd, (acceptConn l (AcceptSys.ok nfd) none).l.fdconns
        = alSet l.fdconns nfd ⟨nfd, [], false, false, Action.None⟩
      ∧ (acceptConn l (AcceptSys.ok nfd) none).l.count = l.count + 1)
    ∧ acceptConn l AcceptSys.eagain nb = ⟨l, [], none⟩ := by
  have hidx : goAcceptIdx accepted loopsInfo.length = (l.idx : Int)
      ↔ accepted % loopsInfo.length = l.idx := by
    rw [goAcceptIdx_small accepted loopsInfo.length hacc]
    exact Int.natCast_inj
  refine ⟨fun hne => ?_, fun heq => ?_, fun nfd => ?_, ?_⟩
  · have : goAcceptIdx accepted loopsInfo.length ≠ (l.idx : Int) :=
      fun hc => hne (hidx.mp hc)
    simp [loopAccept, hN, this]
  · have : goAcceptIdx accepted loopsInfo.length = (l.idx : Int) := hidx.mpr heq
    simp [loopAccept, hN, this]
  · exact ⟨rfl, rfl⟩
  · rfl

/-- C1 witness: four loops, accepted counter at 6 — loop 1 declines and
changes nothing; loop 2 (slot 6 mod 4 = 2) bumps the counter to 7, and on
a successful accept of fd 11 registers it with the count rising 0 to 1. -/
theorem roundRobin_gate_witness :
    loopAccept LoadBalance.RoundRobin [(0, 0), (1, 0), (2, 0), (3, 0)] 6
        ⟨1, ⟨[(9, Interest.read)], [], false⟩, [], 0, []⟩
        (AcceptSys.ok 11) none
      = (6, ⟨⟨1, ⟨[(9, Interest.read)], [], false⟩, [], 0, []⟩, [], none⟩)
    ∧ loopAccept LoadBalance.RoundRobin [(0, 0), (1, 0), (2, 0), (3, 0)] 6
        ⟨2, ⟨[(9, Interest.read)], [], false⟩, [], 0, []⟩
        (AcceptSys.ok 11) none
      = (7, acceptConn ⟨2, ⟨[(9, Interest.read)], [], false⟩, [], 0, []⟩
          (AcceptSys.ok 11) none)
    ∧ (acceptConn ⟨2, ⟨[(9, Interest.read)], [], false⟩, [], 0, []⟩
        (AcceptSys.ok 11) none).l.count = 0 + 1 := by
  refine ⟨?_, ?_, ?_⟩
  · exact (roundRobin_gate [(0, 0), (1, 0), (2, 0), (3, 0)] 6
      ⟨1, ⟨[(9, Interest.read)], [], false⟩, [], 0, []⟩
      (AcceptSys.ok 11) none (by decide) (by norm_num)).1 (by decide)
  · exact (roundRobin_gate [(0, 0), (1, 0), (2, 0), (3, 0)] 6
      ⟨2, ⟨[(9, Interest.read)], [], false⟩, [], 0, []⟩
      (AcceptSys.ok 11) none (by decide) (by norm_num)).2.1 (by decide)
  · exact ((roundRobin_gate [(0, 0), (1, 0), (2, 0), (3, 0)] 6
      ⟨2, ⟨[(9, Interest.read)], [], false⟩, [], 0, []⟩
      (AcceptSys.ok 11) none (by decide) (by norm_num)).2.2.1 11).2

/-- C5: the read transition is never taken while the outbound buffer is
non-empty (the dispatcher routes such events to Opened or write); a read
returning EAGAIN changes nothing and runs no callback; a zero-byte read
closes the connection with a nil error and any other read error closes it
with that error, Closed receiving that error when registered; otherwise
the bytes are passed to Data — the trace's fresh flag, `!c.reuse`,
records the code's copy into a fresh allocation exactly when
ReuseInputBuffer is false — the returned action is recorded, non-empty
returned bytes are copied into the outbound buffer, and interest is
widened to read+write exactly when the buffer is now non-empty or the
action is not None. -/
theorem loopRead_spec (ev : Events) (isTCP : Bool) (balance : LoadBalance)
    (loopsInfo : List (Nat × Int)) (accepted : Nat) (l : LoopState)
    (c : Conn) (orc : SysOracle) (code : Nat) (bytes : List Nat) :
    (alLookup l.fdconns c.fd = some c → c.out ≠ [] →
      onFdEvent ev isTCP balance loopsInfo accepted l c.fd orc
        = (accepted, if c.opened = false then loopOpened ev isTCP l c orc.kaRes
            else loopWrite ev l c orc.writeRes))
    ∧ loopRead ev l c ReadSys.eagain = ⟨l, [], none⟩
    ∧ loopRead ev l c (ReadSys.ok []) = loopCloseConn ev l c none
    ∧ loopRead ev l c (ReadSys.fail code) = loopCloseConn ev l c (some code)
    ∧ (∀ e, (loopCloseConn ev l c e).l.fdconns = alErase l.fdconns c.fd
        ∧ (∀ f, ev.closedCb = some f →
            (loopCloseConn ev l c e).tr = [CB.closedCall c.fd e]))
    ∧ (∀ f, ev.dataCb = some f → bytes ≠ [] →
        loopRead ev l c (ReadSys.ok bytes)
          = ⟨storeAndWiden l
              (if 0 < (f c bytes).1.length then
                { c with action := (f c bytes).2, out := (f c bytes).1 }
              else { c with action := (f c bytes).2 }),
             [CB.dataCall c.fd bytes (!c.reuse)], none⟩)
    ∧ (∀ c1 : Conn, (c1.out ≠ [] ∨ c1.action ≠ Action.None) →
        (storeAndWiden l c1).poll.interest c1.fd = some Interest.readWrite)
    ∧ (∀ c1 : Conn, c1.out = [] → c1.action = Action.None →
        (storeAndWiden l c1).poll = l.poll) := by
  refine ⟨fun hm hout => ?_, rfl, rfl, rfl,
      fun e => ⟨by rw [loopCloseConn_state], fun f hf => ?_⟩,
      fun f hf hb => ?_, fun c1 hwide => ?_, fun c1 h1 h2 => ?_⟩
  · rcases hop : c.opened with _ | _
    · simp [onFdEvent, hm, hop]
    · simp [onFdEvent, hm, hop, hout]
  · exact loopCloseConn_tr ev l c e f hf
  · have hb' : bytes.length ≠ 0 := fun hc => hb (List.length_eq_zero.mp hc)
    simp [loopRead, hf, hb']
  · simp [storeAndWiden, hwide, Poll.modReadWrite, Poll.interest,
      alLookup_alSet_self]
  · simp [storeAndWiden, h1, h2]

/-- C5 witness: an opened idle connection at fd 4 whose Data callback
echoes the input — reading bytes [1, 2] records action None, copies the
echo into the outbound buffer with a fresh input copy (reuse is false),
and widens fd 4's interest to read+write. -/
theorem loopRead_spec_witness :
    loopRead ⟨0, LoadBalance.Random, none,
        some (fun _ bs => (bs, Action.None)), none, none⟩
      ⟨0, ⟨[(4, Interest.read)], [], false⟩,
        [(4, ⟨4, [], false, true, Action.None⟩)], 1, []⟩
      ⟨4, [], false, true, Action.None⟩ (ReadSys.ok [1, 2])
    = ⟨⟨0, ⟨[(4, Interest.readWrite)], [], false⟩,
        [(4, ⟨4, [1, 2], false, true, Action.None⟩)], 1, []⟩,
       [CB.dataCall 4 [1, 2] true], none⟩ := by
  have h := (loopRead_spec ⟨0, LoadBalance.Random, none,
      some (fun _ bs => (bs, Action.None)), none, none⟩ false
      LoadBalance.Random [] 0
      ⟨0, ⟨[(4, Interest.read)], [], false⟩,
        [(4, ⟨4, [], false, true, Action.None⟩)], 1, []⟩
      ⟨4, [], false, true, Action.None⟩
      ⟨AcceptSys.eagain, none, none, WriteSys.eagain, ReadSys.eagain⟩
      0 [1, 2]).2.2.2.2.2.1
    (fun _ bs => (bs, Action.None)) rfl (by decide)
  rw [h]
  rfl

/-- C6: a write transition seeing EAGAIN leaves the loop state (buffer,
action, interest) fully unchanged and runs no callback; a successful
write of n bytes compacts the outbound buffer to the part after n, and
when that drains it while the action is None the interest narrows to
read-only; any other write error closes the connection, passing that
error to Closed when registered. -/
theorem loopWrite_spec (ev : Events) (l : LoopState) (c : Conn)
    (n code : Nat) :
    loopWrite ev l c WriteSys.eagain = ⟨l, [], none⟩
    ∧ loopWrite ev l c (WriteSys.ok n)
      = ⟨storeAndSettle l { c with out := c.out.drop n }, [], none⟩
    ∧ (c.out.drop n = [] → c.action = Action.None →
        (loopWrite ev l c (WriteSys.ok n)).l.poll.interest c.fd
          = some Interest.read)
    ∧ loopWrite ev l c (WriteSys.fail code) = loopCloseConn ev l c (some code)
    ∧ (loopCloseConn ev l c (some code)).l.fdconns = alErase l.fdconns c.fd
    ∧ (∀ f, ev.closedCb = some f →
        (loopCloseConn ev l c (some code)).tr
          = [CB.closedCall c.fd (some code)]) := by
  refine ⟨rfl, rfl, fun h1 h2 => ?_, rfl, by rw [loopCloseConn_state],
      fun f hf => loopCloseConn_tr ev l c (some code) f hf⟩
  simp [loopWrite, storeAndSettle, h1, h2, Poll.modRead, Poll.interest,
    alLookup_alSet_self]

/-- C6 witness: fd 4 with outbound [1, 2, 3] writes 3 bytes — the buffer
drains and, the action being None, interest narrows to read-only; and a
failing write (code 104) on the same connection removes fd 4 from the map
and reports the error to the Closed callback. -/
theorem loopWrite_spec_witness :
    (loopWrite ⟨0, LoadBalance.Random, none, none,
          some (fun _ _ => Action.None), none⟩
        ⟨0, ⟨[(4, Interest.readWrite)], [], false⟩,
          [(4, ⟨4, [1, 2, 3], false, true, Action.None⟩)], 1, []⟩
        ⟨4, [1, 2, 3], false, true, Action.None⟩
        (WriteSys.ok 3)).l.poll.interest 4 = some Interest.read
    ∧ (loopCloseConn ⟨0, LoadBalance.Random, none, none,
          some (fun _ _ => Action.None), none⟩
        ⟨0, ⟨[(4, Interest.readWrite)], [], false⟩,
          [(4, ⟨4, [1, 2, 3], false, true, Action.None⟩)], 1, []⟩
        ⟨4, [1, 2, 3], false, true, Action.None⟩ (some 104)).tr
      = [CB.closedCall 4 (some 104)] :=
  ⟨(loopWrite_spec ⟨0, LoadBalance.Random, none, none,
        some (fun _ _ => Action.None), none⟩
      ⟨0, ⟨[(4, Interest.readWrite)], [], false⟩,
        [(4, ⟨4, [1, 2, 3], false, true, Action.None⟩)], 1, []⟩
      ⟨4, [1, 2, 3], false, true, Action.None⟩ 3 104).2.2.1 rfl rfl,
   (loopWrite_spec ⟨0, LoadBalance.Random, none, none,
        some (fun _ _ => Action.None), none⟩
      ⟨0, ⟨[(4, Interest.readWrite)], [], false⟩,
        [(4, ⟨4, [1, 2, 3], false, true, Action.None⟩)], 1, []⟩
      ⟨4, [1, 2, 3], false, true, Action.None⟩ 3 104).2.2.2.2.2
     (fun _ _ => Action.None) rfl⟩

/-- C7: `Connection.Write` attempts the direct write first — a full
write changes nothing; EAGAIN posts the whole data and a partial write of
n bytes posts the remainder to the owning loop's pending-writes channel,
each firing a Write event at that loop's poller; and on delivery of the
Write tag the loop drains exactly one pending write, appends its data to
the target connection's outbound buffer, and widens that fd's interest to
read+write. -/
theorem connWrite_spec (ev : Events) (l : LoopState) (c : Conn)
    (data : List Nat) (n : Nat) :
    connWrite l c data WriteSys.eagain
      = ({ l with wch := l.wch ++ [⟨c.fd, data⟩],
                  poll := l.poll.fireEvent EvTag.EventWrite }, none)
    ∧ (n < data.length →
      connWrite l c data (WriteSys.ok n)
        = ({ l with wch := l.wch ++ [⟨c.fd, data.drop n⟩],
                    poll := l.poll.fireEvent EvTag.EventWrite }, none))
    ∧ connWrite l c data (WriteSys.ok data.length) = (l, none)
    ∧ (∀ we rest c0, l.wch = we :: rest →
        alLookup l.fdconns we.fd = some c0 →
        onEvent ev l EvTag.EventWrite
          = ⟨{ l with wch := rest,
                      fdconns := alSet l.fdconns we.fd
                        { c0 with out := c0.out ++ we.data },
                      poll := l.poll.modReadWrite we.fd }, [], none⟩)
    ∧ (∀ fd, (l.poll.modReadWrite fd).interest fd = some Interest.readWrite) := by
  refine ⟨rfl, fun h => ?_, ?_, fun we rest c0 hw hc => ?_, fun fd => ?_⟩
  · simp [connWrite, h, connWillWrite]
  · simp [connWrite]
  · simp [onEvent, hw, hc]
  · simp [Poll.modReadWrite, Poll.interest, alLookup_alSet_self]

/-- C7 witness: writing [1, 2, 3] with a direct write of 1 byte queues
the remainder [2, 3] for fd 4 and fires a Write event; delivering the
Write tag then drains that one event, appends [2, 3] to fd 4's outbound
buffer and widens its interest. -/
theorem connWrite_spec_witness :
    connWrite ⟨0, ⟨[(4, Interest.read)], [], false⟩,
        [(4, ⟨4, [], false, true, Action.None⟩)], 1, []⟩
      ⟨4, [], false, true, Action.None⟩ [1, 2, 3] (WriteSys.ok 1)
    = (⟨0, ⟨[(4, Interest.read)], [EvTag.EventWrite], false⟩,
        [(4, ⟨4, [], false, true, Action.None⟩)], 1, [⟨4, [2, 3]⟩]⟩, none)
    ∧ onEvent ⟨0, LoadBalance.Random, none, none, none, none⟩
        ⟨0, ⟨[(4, Interest.read)], [EvTag.EventWrite], false⟩,
          [(4, ⟨4, [], false, true, Action.None⟩)], 1, [⟨4, [2, 3]⟩]⟩
        EvTag.EventWrite
      = ⟨⟨0, ⟨[(4, Interest.readWrite)], [EvTag.EventWrite], false⟩,
          [(4, ⟨4, [2, 3], false, true, Action.None⟩)], 1, []⟩, [], none⟩ := by
  constructor
  · have h := (connWrite_spec ⟨0, LoadBalance.Random, none, none, none, none⟩
        ⟨0, ⟨[(4, Interest.read)], [], false⟩,
          [(4, ⟨4, [], false, true, Action.None⟩)], 1, []⟩
        ⟨4, [], false, true, Action.None⟩ [1, 2, 3] 1).2.1 (by decide)
    rw [h]
    rfl
  · have h := (connWrite_spec ⟨0, LoadBalance.Random, none, none, none, none⟩
        ⟨0, ⟨[(4, Interest.read)], [EvTag.EventWrite], false⟩,
          [(4, ⟨4, [], false, true, Action.None⟩)], 1, [⟨4, [2, 3]⟩]⟩
        ⟨4, [], false, true, Action.None⟩ [] 0).2.2.2.1
      ⟨4, [2, 3]⟩ [] ⟨4, [], false, true, Action.None⟩ rfl rfl
    rw [h]
    rfl

/-- C10: when the Opened callback requests TCPKeepAlive above zero on a
TCP listener and setting keep-alive on the fd fails, `loopOpened` returns
that error to the poller — which terminates the owning loop's wait —
while the connection is not closed by this path: its fd stays in the
loop's map, the count is untouched, and no Closed callback runs (the
trace holds only the Opened call); by contrast, a read or write error
closes only the affected connection, the loop surviving (here with no
Closed callback registered, the error result is none). -/
theorem loopOpened_keepalive_error (ev : Events) (l : LoopState) (c : Conn)
    (f : Conn → List Nat × Options × Action) (code rcode : Nat)
    (hf : ev.openedCb = some f)
    (hka : 0 < (f { c with opened := true }).2.1.tcpKeepAlive) :
    (loopOpened ev true l c (some code)).err = some (LoopErr.sys code)
    ∧ (alLookup (loopOpened ev true l c (some code)).l.fdconns c.fd).isSome
    ∧ (loopOpened ev true l c (some code)).l.count = l.count
    ∧ (loopOpened ev true l c (some code)).tr = [CB.openedCall c.fd]
    ∧ (ev.closedCb = none →
        (loopWrite ev l c (WriteSys.fail rcode)).err = none
        ∧ alLookup (loopWrite ev l c (WriteSys.fail rcode)).l.fdconns c.fd
            = none ∨ ¬ (alKeys l.fdconns).Nodup)
    ∧ (ev.closedCb = none →
        (loopRead ev l c (ReadSys.fail rcode)).err = none) := by
  have hcond : 0 < (f { c with opened := true }).2.1.tcpKeepAlive ∧ true = true :=
    ⟨hka, rfl⟩
  refine ⟨?_, ?_, ?_, ?_, fun hcb => ?_, fun hcb => ?_⟩
  · by_cases hlen : 0 < (f { c with opened := true }).1.length <;>
      simp [loopOpened, hf, hcond, hlen]
  · by_cases hlen : 0 < (f { c with opened := true }).1.length <;>
      simp [loopOpened, hf, hcond, hlen, alLookup_alSet_self]
  · by_cases hlen : 0 < (f { c with opened := true }).1.length <;>
      simp [loopOpened, hf, hcond, hlen]
  · by_cases hlen : 0 < (f { c with opened := true }).1.length <;>
      simp [loopOpened, hf, hcond, hlen]
  · by_cases hn : (alKeys l.fdconns).Nodup
    · left
      constructor
      · simp [loopWrite, loopCloseConn, hcb]
      · simp only [loopWrite, loopCloseConn, hcb]
        exact alLookup_alErase_self l.fdconns c.fd hn
    · right
      exact hn
  · simp [loopRead, loopCloseConn, hcb]

/-- C10 witness: a connection at fd 6 whose Opened callback asks for a
five-minute keep-alive; SetKeepAlive failing with code 22 makes
loopOpened return that error while fd 6 stays mapped, the count stays 1
and only the Opened callback ran — whereas a read error 104 merely closes
that connection without an error result. -/
theorem loopOpened_keepalive_error_witness :
    (loopOpened ⟨0, LoadBalance.Random,
        some (fun _ => ([], ⟨300000000000, false⟩, Action.None)),
        none, none, none⟩ true
      ⟨0, ⟨[(6, Interest.readWrite)], [], false⟩,
        [(6, ⟨6, [], false, false, Action.None⟩)], 1, []⟩
      ⟨6, [], false, false, Action.None⟩ (some 22)).err
      = some (LoopErr.sys 22)
    ∧ (alLookup (loopOpened ⟨0, LoadBalance.Random,
        some (fun _ => ([], ⟨300000000000, false⟩, Action.None)),
        none, none, none⟩ true
      ⟨0, ⟨[(6, Interest.readWrite)], [], false⟩,
        [(6, ⟨6, [], false, false, Action.None⟩)], 1, []⟩
      ⟨6, [], false, false, Action.None⟩ (some 22)).l.fdconns 6).isSome
    ∧ (loopOpened ⟨0, LoadBalance.Random,
        some (fun _ => ([], ⟨300000000000, false⟩, Action.None)),
        none, none, none⟩ true
      ⟨0, ⟨[(6, Interest.readWrite)], [], false⟩,
        [(6, ⟨6, [], false, false, Action.None⟩)], 1, []⟩
      ⟨6, [], false, false, Action.None⟩ (some 22)).l.count = 1
    ∧ (loopRead ⟨0, LoadBalance.Random,
        some (fun _ => ([], ⟨300000000000, false⟩, Action.None)),
        none, none, none⟩
      ⟨0, ⟨[(6, Interest.readWrite)], [], false⟩,
        [(6, ⟨6, [], false, false, Action.None⟩)], 1, []⟩
      ⟨6, [], false, false, Action.None⟩ (ReadSys.fail 104)).err = none := by
  have h := loopOpened_keepalive_error ⟨0, LoadBalance.Random,
      some (fun _ => ([], ⟨300000000000, false⟩, Action.None)),
      none, none, none⟩
    ⟨0, ⟨[(6, Interest.readWrite)], [], false⟩,
      [(6, ⟨6, [], false, false, Action.None⟩)], 1, []⟩
    ⟨6, [], false, false, Action.None⟩
    (fun _ => ([], ⟨300000000000, false⟩, Action.None)) 22 104 rfl
    (by norm_num)
  exact ⟨h.1, h.2.1, h.2.2.1, h.2.2.2.2.2 rfl⟩

/-- C2 counterexample: a freshly accepted connection (fd 7 on an empty
loop) has an empty outbound buffer and action None, yet the code
registers it with read+write interest — refuting the claim that interest
is read-only whenever the buffer is empty and the action is None, here
immediately after the accept operation the claim itself covers. -/
theorem interest_after_accept_cex :
    (alLookup (acceptConn ⟨0, ⟨[(9, Interest.read)], [], false⟩, [], 0, []⟩
        (AcceptSys.ok 7) none).l.fdconns 7
      = some ⟨7, [], false, false, Action.None⟩)
    ∧ (acceptConn ⟨0, ⟨[(9, Interest.read)], [], false⟩, [], 0, []⟩
        (AcceptSys.ok 7) none).l.poll.interest 7 = some Interest.readWrite
    ∧ (acceptConn ⟨0, ⟨[(9, Interest.read)], [], false⟩, [], 0, []⟩
        (AcceptSys.ok 7) none).l.poll.interest 7 ≠ some Interest.read := by
  refine ⟨rfl, rfl, ?_⟩
  intro hc
  simp [acceptConn, Poll.addReadWrite, Poll.interest, alSet, alLookup] at hc

/-- C9: the connection counter equals the size of the fd-to-connection
map after every handler operation (fd events covering accept, Opened,
write, action and read, and user events covering cross-loop write
delivery): well-formedness — count = |fdconns| with unique keys, each
conn stored under its own fd — is preserved; accept is the operation that
inserts and increments (by one each, on a successful accept of a fresh
fd), and closing is the operation that deletes and decrements (by one
each). -/
theorem count_matches_map (ev : Events) (isTCP : Bool)
    (balance : LoadBalance) (loopsInfo : List (Nat × Int)) (accepted : Nat)
    (l : LoopState) (fd : Nat) (orc : SysOracle) (tag : EvTag)
    (hWF : LoopWF l)
    (hfresh : ∀ nfd, orc.acceptRes = AcceptSys.ok nfd →
      alLookup l.fdconns nfd = none) :
    LoopWF (onFdEvent ev isTCP balance loopsInfo accepted l fd orc).2.l
    ∧ LoopWF (onEvent ev l tag).l
    ∧ (∀ nfd, alLookup l.fdconns nfd = none →
        (acceptConn l (AcceptSys.ok nfd) none).l.count = l.count + 1
        ∧ (acceptConn l (AcceptSys.ok nfd) none).l.fdconns.length
            = l.fdconns.length + 1)
    ∧ (∀ (c : Conn) (e : Option Nat), (alLookup l.fdconns c.fd).isSome →
        (loopCloseConn ev l c e).l.count = l.count - 1
        ∧ ((loopCloseConn ev l c e).l.fdconns.length : Int)
            = (l.fdconns.length : Int) - 1) := by
  refine ⟨LoopWF_onFdEvent ev isTCP balance loopsInfo accepted l fd orc hWF
      hfresh,
    LoopWF_onEvent ev l tag hWF, fun nfd hnew => ⟨rfl, ?_⟩,
    fun c e hm => ⟨?_, ?_⟩⟩
  · exact length_alSet_of_new l.fdconns nfd _ hnew
  · rw [loopCloseConn_state]
  · obtain ⟨c0, hc0⟩ := Option.isSome_iff_exists.mp hm
    have := length_alErase_of_mem l.fdconns c.fd c0 hc0
    rw [loopCloseConn_state]
    show ((alErase l.fdconns c.fd).length : Int) = (l.fdconns.length : Int) - 1
    omega

/-- C9 witness: a well-formed loop holding the opened connection fd 5
(count 1, unique keys); an event on the unmapped listener fd 9 with a
successful accept of fresh fd 7 keeps it well-formed, accepting fd 7
raises count and map size from 1 to 2 together, and closing fd 5 lowers
both back. -/
theorem count_matches_map_witness :
    LoopWF (onFdEvent ⟨0, LoadBalance.Random, none, none, none, none⟩ false
      LoadBalance.Random [(0, 1)] 0
      ⟨0, ⟨[(9, Interest.read), (5, Interest.read)], [], false⟩,
        [(5, ⟨5, [], false, true, Action.None⟩)], 1, []⟩ 9
      ⟨AcceptSys.ok 7, none, none, WriteSys.eagain, ReadSys.eagain⟩).2.l
    ∧ (acceptConn ⟨0, ⟨[(9, Interest.read), (5, Interest.read)], [], false⟩,
        [(5, ⟨5, [], false, true, Action.None⟩)], 1, []⟩
        (AcceptSys.ok 7) none).l.count = 1 + 1
    ∧ (loopCloseConn ⟨0, LoadBalance.Random, none, none, none, none⟩
        ⟨0, ⟨[(9, Interest.read), (5, Interest.read)], [], false⟩,
          [(5, ⟨5, [], false, true, Action.None⟩)], 1, []⟩
        ⟨5, [], false, true, Action.None⟩ none).l.count = 1 - 1 := by
  have h := count_matches_map ⟨0, LoadBalance.Random, none, none, none, none⟩
    false LoadBalance.Random [(0, 1)] 0
    ⟨0, ⟨[(9, Interest.read), (5, Interest.read)], [], false⟩,
      [(5, ⟨5, [], false, true, Action.None⟩)], 1, []⟩ 9
    ⟨AcceptSys.ok 7, none, none, WriteSys.eagain, ReadSys.eagain⟩
    EvTag.EventClose
    ⟨by decide, by decide, by
      intro fd c hl
      simp [alLookup] at hl
      rcases hl with ⟨h1, h2⟩
      rw [← h2, ← h1]⟩
    (by
      intro nfd hok
      cases hok
      rfl)
  refine ⟨h.1, (h.2.2.1 7 rfl).1, ?_⟩
  have h5 : (alLookup
      ([(5, (⟨5, [], false, true, Action.None⟩ : Conn))])
      ((⟨5, [], false, true, Action.None⟩ : Conn).fd)).isSome := by decide
  exact (h.2.2.2 ⟨5, [], false, true, Action.None⟩ none h5).1

/-- C2 (amended): for every connection in a loop's map that has been
opened, whenever the handler returns control to the poller wait without
an error, the registered interest is read-only exactly when the outbound
buffer is empty and the action is None, and read+write otherwise — while
a freshly accepted, not-yet-opened connection is deliberately registered
read+write despite an empty buffer.  The invariant (`interestInv`) is
preserved by every fd-event dispatch (accept, Opened, write, action,
read) that returns no error, and by every user-event delivery (including
cross-loop write delivery), given a well-formed loop whose queued write
events carry non-empty data. -/
theorem interest_invariant (ev : Events) (isTCP : Bool)
    (balance : LoadBalance) (loopsInfo : List (Nat × Int)) (accepted : Nat)
    (l : LoopState) (fd : Nat) (orc : SysOracle) (tag : EvTag)
    (hWF : LoopWF l) (hInv : interestInv l)
    (hwch : ∀ we, we ∈ l.wch → we.data ≠ []) :
    ((onFdEvent ev isTCP balance loopsInfo accepted l fd orc).2.err = none →
      interestInv (onFdEvent ev isTCP balance loopsInfo accepted l fd orc).2.l)
    ∧ interestInv (onEvent ev l tag).l := by
  constructor
  · rcases hl : alLookup l.fdconns fd with _ | c
    · intro _
      have hstep : onFdEvent ev isTCP balance loopsInfo accepted l fd orc
          = loopAccept balance loopsInfo accepted l orc.acceptRes
              orc.nonblockRes := by
        unfold onFdEvent
        rw [hl]
      rw [hstep]
      exact interestInv_loopAccept balance loopsInfo accepted l orc.acceptRes
        orc.nonblockRes hInv
    · have hkey : c.fd = fd := hWF.2.2 fd c hl
      have hstep : onFdEvent ev isTCP balance loopsInfo accepted l fd orc
          = (if c.opened = false
              then (accepted, loopOpened ev isTCP l c orc.kaRes)
              else if c.out ≠ [] then (accepted, loopWrite ev l c orc.writeRes)
              else if c.action ≠ Action.None then (accepted, loopAction ev l c)
              else (accepted, loopRead ev l c orc.readRes)) := by
        unfold onFdEvent
        rw [hl]
      rw [hstep]
      clear hstep
      have hlc : alLookup l.fdconns c.fd = some c := by
        rw [hkey]
        exact hl
      by_cases hop : c.opened = false
      · rw [if_pos hop]
        intro herr
        rcases loopOpened_shape ev isTCP l c orc.kaRes with
          ⟨c', hfd, hop', heq⟩ | ⟨c', hfd, hop', heq, herrne⟩
        · rw [heq]
          refine interestInv_storeAndSettle l c' c hInv ?_ hop' ?_
          · rw [hfd]
            exact hlc
          · intro _ hc
            exact absurd (hc.1.symm.trans hop) (by decide)
        · exact absurd herr herrne
      · rw [if_neg hop]
        have hop1 : c.opened = true := by
          revert hop
          cases c.opened <;> simp
        by_cases hout : c.out ≠ []
        · rw [if_pos hout]
          intro _
          rcases orc.writeRes with n | _ | code
          · refine interestInv_storeAndSettle l { c with out := c.out.drop n }
              c hInv hlc hop1 ?_
            intro _ hc
            exact hout hc.2.1
          · exact hInv
          · exact interestInv_loopCloseConn ev l c (some code) hWF.2.1 hInv
        · rw [if_neg hout]
          have hout1 : c.out = [] := by
            revert hout
            by_cases hq : c.out = [] <;> simp [hq]
          by_cases hact : c.action ≠ Action.None
          · rw [if_pos hact]
            intro herr
            rcases ha : c.action with _ | _ | _
            · exact absurd ha hact
            · have hstep2 : loopAction ev l c = loopCloseConn ev l c none := by
                simp only [loopAction, ha]
              rw [hstep2]
              exact interestInv_loopCloseConn ev l c none hWF.2.1 hInv
            · have hstep2 : loopAction ev l c
                  = ⟨l, [], some LoopErr.closing⟩ := by
                simp only [loopAction, ha]
              rw [hstep2] at herr
              cases herr
          · rw [if_neg hact]
            have hact1 : c.action = Action.None := by
              revert hact
              by_cases hq : c.action = Action.None <;> simp [hq]
            intro _
            rcases orc.readRes with bytes | _ | code
            · by_cases hb : bytes.length = 0
              · have hstep2 : loopRead ev l c (ReadSys.ok bytes)
                    = loopCloseConn ev l c none := by
                  simp only [loopRead, hb, if_true]
                rw [hstep2]
                exact interestInv_loopCloseConn ev l c none hWF.2.1 hInv
              · rcases hdb : ev.dataCb with _ | f
                · have hstep2 : loopRead ev l c (ReadSys.ok bytes)
                      = ⟨storeAndWiden l c, [], none⟩ := by
                    simp only [loopRead, hb, if_false, hdb]
                  rw [hstep2]
                  exact interestInv_storeAndWiden l c c hInv hlc hop1
                    ⟨hop1, hout1, hact1⟩
                · by_cases hlen : 0 < (f c bytes).1.length
                  · have hstep2 : loopRead ev l c (ReadSys.ok bytes)
                        = ⟨storeAndWiden l
                            ⟨c.fd, (f c bytes).1, c.reuse, c.opened,
                              (f c bytes).2⟩,
                           [CB.dataCall c.fd bytes (!c.reuse)], none⟩ := by
                      simp [loopRead, hb, hdb, hlen]
                    rw [hstep2]
                    exact interestInv_storeAndWiden l
                      ⟨c.fd, (f c bytes).1, c.reuse, c.opened, (f c bytes).2⟩
                      c hInv hlc hop1 ⟨hop1, hout1, hact1⟩
                  · have hstep2 : loopRead ev l c (ReadSys.ok bytes)
                        = ⟨storeAndWiden l
                            ⟨c.fd, c.out, c.reuse, c.opened, (f c bytes).2⟩,
                           [CB.dataCall c.fd bytes (!c.reuse)], none⟩ := by
                      simp [loopRead, hb, hdb, hlen]
                    rw [hstep2]
                    exact interestInv_storeAndWiden l
                      ⟨c.fd, c.out, c.reuse, c.opened, (f c bytes).2⟩
                      c hInv hlc hop1 ⟨hop1, hout1, hact1⟩
            · exact hInv
            · exact interestInv_loopCloseConn ev l c (some code) hWF.2.1 hInv
  · rcases tag
    case EventClose => exact hInv
    case EventTick =>
      rcases hcb : ev.tickCb with _ | f
      · simp only [onEvent, hcb]
        exact hInv
      · rcases ha : (f ()).2 <;> simp only [onEvent, hcb, ha] <;> exact hInv
    case EventWrite =>
      rcases hw : l.wch with _ | ⟨we, rest⟩
      · simp only [onEvent, hw]
        exact hInv
      · simp only [onEvent, hw]
        rcases hc0 : alLookup l.fdconns we.fd with _ | c0
        · simp only [hc0]
          exact hInv
        · simp only [hc0]
          have hdata : we.data ≠ [] := hwch we (by
            rw [hw]
            exact List.mem_cons_self we rest)
          refine interestInv_update l _ we.fd hInv ?_ ?_ ?_
          · intro fd2 hfd
            show alLookup (alSet l.fdconns we.fd _) fd2 = _
            exact alLookup_alSet_ne _ _ _ _ (fun hc => hfd hc.symm)
          · intro fd2 hfd
            show alLookup (alSet l.poll.regs we.fd Interest.readWrite) fd2 = _
            exact alLookup_alSet_ne _ _ _ _ (fun hc => hfd hc.symm)
          · intro c' hl2
            change alLookup (alSet l.fdconns we.fd
              { c0 with out := c0.out ++ we.data }) we.fd = some c' at hl2
            rw [alLookup_alSet_self] at hl2
            cases hl2
            unfold connInterestOK
            rw [if_neg (by
              intro hc
              rcases List.append_eq_nil.mp hc.2.1 with ⟨_, hd⟩
              exact hdata hd)]
            exact alLookup_alSet_self _ _ _

/-- C2 witness: a loop with one opened idle connection at fd 5 held at
read-only interest satisfies the invariant; after an fd event on 5 whose
read returns one byte (no Data callback registered), the invariant still
holds on the error-free return to the wait. -/
theorem interest_invariant_witness :
    interestInv (onFdEvent ⟨0, LoadBalance.Random, none, none, none, none⟩
      false LoadBalance.Random [(0, 1)] 0
      ⟨0, ⟨[(9, Interest.read), (5, Interest.read)], [], false⟩,
        [(5, ⟨5, [], false, true, Action.None⟩)], 1, []⟩ 5
      ⟨AcceptSys.eagain, none, none, WriteSys.eagain,
        ReadSys.ok [1]⟩).2.l := by
  have hWF0 : LoopWF ⟨0, ⟨[(9, Interest.read), (5, Interest.read)], [],
      false⟩, [(5, ⟨5, [], false, true, Action.None⟩)], 1, []⟩ := by
    refine ⟨by decide, by decide, ?_⟩
    intro fd c hl
    simp [alLookup] at hl
    rcases hl with ⟨h1, h2⟩
    rw [← h2, ← h1]
  have hInv0 : interestInv ⟨0, ⟨[(9, Interest.read), (5, Interest.read)], [],
      false⟩, [(5, ⟨5, [], false, true, Action.None⟩)], 1, []⟩ := by
    intro fd c hl
    simp [alLookup] at hl
    rcases hl with ⟨h1, h2⟩
    rw [← h2, ← h1]
    unfold connInterestOK
    rw [if_pos ⟨rfl, rfl, rfl⟩]
    rfl
  have h := interest_invariant ⟨0, LoadBalance.Random, none, none, none, none⟩
    false LoadBalance.Random [(0, 1)] 0
    ⟨0, ⟨[(9, Interest.read), (5, Interest.read)], [], false⟩,
      [(5, ⟨5, [], false, true, Action.None⟩)], 1, []⟩ 5
    ⟨AcceptSys.eagain, none, none, WriteSys.eagain, ReadSys.ok [1]⟩
    EvTag.EventClose hWF0 hInv0 (by
      intro we hwe
      simp at hwe)
  exact h.1 rfl

/-! ## Lemmas for the shutdown sweep -/

/-- Recognizer for a Closed-callback trace entry on a given fd. -/
def isCloseFor (fd : Nat) : CB → Bool
  | CB.closedCall fd2 _ => fd2 == fd
  | _ => false

theorem loopCloseConn_tr_none (ev : Events) (l : LoopState) (c : Conn)
    (e : Option Nat) (hcb : ev.closedCb = none) :
    (loopCloseConn ev l c e).tr = [] := by
  simp [loopCloseConn, hcb]

theorem alLookup_of_mem_nodup {α : Type} (xs : List (Nat × α))
    (hn : (alKeys xs).Nodup) (p : Nat × α) (hp : p ∈ xs) :
    alLookup xs p.1 = some p.2 := by
  induction xs with
  | nil => cases hp
  | cons hd tl ih =>
      obtain ⟨a, w⟩ := hd
      rcases List.nodup_cons.mp (by simpa [alKeys_cons] using hn) with ⟨ha, htl⟩
      rcases List.mem_cons.mp hp with rfl | hp2
      · simp [alLookup]
      · have hne : a ≠ p.1 := by
          intro hc
          exact ha (hc ▸ List.mem_map_of_mem Prod.fst hp2)
        simp only [alLookup, if_neg hne]
        exact ih htl hp2

theorem closeConnsList_spec (ev : Events) (xs : List (Nat × Conn)) :
    ∀ l : LoopState, l.fdconns = xs → (∀ p ∈ xs, (p.2 : Conn).fd = p.1) →
      (closeConnsList ev l xs).1.fdconns = []
      ∧ (closeConnsList ev l xs).1.count = l.count - xs.length
      ∧ (∀ f, ev.closedCb = some f →
          (closeConnsList ev l xs).2
            = xs.map (fun p => CB.closedCall p.1 none))
      ∧ (ev.closedCb = none → (closeConnsList ev l xs).2 = []) := by
  induction xs with
  | nil =>
      intro l hl _
      refine ⟨hl, by simp [closeConnsList], fun f hf => rfl, fun hf => rfl⟩
  | cons hd tl ih =>
      intro l hl hkc
      obtain ⟨fd0, c0⟩ := hd
      have hfd0 : c0.fd = fd0 := hkc (fd0, c0) (List.mem_cons_self _ _)
      have hstate := loopCloseConn_state ev l c0 none
      have herase : (loopCloseConn ev l c0 none).l.fdconns = tl := by
        rw [hstate]
        show alErase l.fdconns c0.fd = tl
        rw [hl, hfd0]
        simp [alErase]
      have hcount : (loopCloseConn ev l c0 none).l.count = l.count - 1 := by
        rw [hstate]
      have ihr := ih (loopCloseConn ev l c0 none).l herase
        (fun p hp => hkc p (List.mem_cons_of_mem _ hp))
      refine ⟨?_, ?_, ?_, ?_⟩
      · show (closeConnsList ev (loopCloseConn ev l c0 none).l tl).1.fdconns = []
        exact ihr.1
      · show (closeConnsList ev (loopCloseConn ev l c0 none).l tl).1.count
          = l.count - ((fd0, c0) :: tl).length
        rw [ihr.2.1, hcount]
        simp only [List.length_cons]
        push_cast
        ring
      · intro f hf
        show (loopCloseConn ev l c0 none).tr
            ++ (closeConnsList ev (loopCloseConn ev l c0 none).l tl).2 = _
        rw [loopCloseConn_tr ev l c0 none f hf, ihr.2.2.1 f hf, hfd0]
        rfl
      · intro hf
        show (loopCloseConn ev l c0 none).tr
            ++ (closeConnsList ev (loopCloseConn ev l c0 none).l tl).2 = []
        rw [loopCloseConn_tr_none ev l c0 none hf, ihr.2.2.2 hf]
        rfl

theorem filter_isCloseFor_not_mem (xs : List (Nat × Conn)) (fd : Nat)
    (hm : fd ∉ alKeys xs) :
    ((xs.map (fun p => CB.closedCall p.1 (none : Option Nat))).filter
      (isCloseFor fd)).length = 0 := by
  induction xs with
  | nil => rfl
  | cons hd tl ih =>
      obtain ⟨a, w⟩ := hd
      have hne : (a == fd) = false := by
        simp only [beq_eq_false_iff_ne]
        intro hc
        exact hm (by simp [alKeys_cons, hc])
      have htl : fd ∉ alKeys tl := fun hc => hm (by simp [alKeys_cons, hc])
      simp only [List.map_cons, List.filter_cons, isCloseFor, hne]
      exact ih htl

theorem filter_isCloseFor_mem (xs : List (Nat × Conn)) (fd : Nat)
    (hn : (alKeys xs).Nodup) (hm : fd ∈ alKeys xs) :
    ((xs.map (fun p => CB.closedCall p.1 (none : Option Nat))).filter
      (isCloseFor fd)).length = 1 := by
  induction xs with
  | nil => cases hm
  | cons hd tl ih =>
      obtain ⟨a, w⟩ := hd
      rcases List.nodup_cons.mp (by simpa [alKeys_cons] using hn) with ⟨ha, htl⟩
      by_cases hafd : a = fd
      · subst hafd
        have heq : (a == a) = true := by simp
        simp only [List.map_cons, List.filter_cons, isCloseFor, heq, if_true,
          List.length_cons]
        rw [filter_isCloseFor_not_mem tl a ha]
      · have hne : (a == fd) = false := by
          simp only [beq_eq_false_iff_ne]
          exact hafd
        have hm2 : fd ∈ alKeys tl := by
          rcases (by simpa [alKeys_cons] using hm : fd = a ∨ fd ∈ alKeys tl)
            with hc | hc
          · exact absurd hc.symm hafd
          · exact hc
        simp only [List.map_cons, List.filter_cons, isCloseFor, hne]
        exact ih htl hm2

/-- C8: the shutdown sweep over every loop closes every connection still
present in that loop's map with a nil error — with a Closed callback
registered, the sweep's trace consists of exactly one Closed(conn, nil)
invocation per mapped fd — empties the map, brings the count to zero,
and afterwards the loop's poller is closed. -/
theorem shutdown_closes_all (ev : Events) (loops : List LoopState)
    (hwf : ∀ l ∈ loops, LoopWF l) :
    serverShutdown ev loops = loops.map (loopShutdown ev)
    ∧ ∀ l ∈ loops,
        (loopShutdown ev l).1.fdconns = []
        ∧ (loopShutdown ev l).1.count = 0
        ∧ (loopShutdown ev l).1.poll.isClosed = true
        ∧ (∀ f, ev.closedCb = some f →
            (loopShutdown ev l).2
              = l.fdconns.map (fun p => CB.closedCall p.1 none)
            ∧ ∀ fd ∈ alKeys l.fdconns,
                ((loopShutdown ev l).2.filter (isCloseFor fd)).length = 1) := by
  refine ⟨rfl, fun l hl => ?_⟩
  obtain ⟨hcnt, hnodup, hkc⟩ := hwf l hl
  have hkcm : ∀ p ∈ l.fdconns, (p.2 : Conn).fd = p.1 := by
    intro p hp
    exact hkc p.1 p.2 (alLookup_of_mem_nodup l.fdconns hnodup p hp)
  have hsp := closeConnsList_spec ev l.fdconns l rfl hkcm
  refine ⟨?_, ?_, rfl, fun f hf => ⟨?_, ?_⟩⟩
  · show (closeConnsList ev l l.fdconns).1.fdconns = []
    exact hsp.1
  · show (closeConnsList ev l l.fdconns).1.count = 0
    rw [hsp.2.1, hcnt]
    ring
  · show (closeConnsList ev l l.fdconns).2 = _
    exact hsp.2.2.1 f hf
  · intro fd hfd
    show ((closeConnsList ev l l.fdconns).2.filter (isCloseFor fd)).length = 1
    rw [hsp.2.2.1 f hf]
    exact filter_isCloseFor_mem l.fdconns fd hnodup hfd

/-- C8 witness: a loop holding opened connections at fds 5 and 6 with a
Closed callback registered — the sweep empties the map, zeroes the count,
closes the poller, and the trace closes each of 5 and 6 exactly once with
a nil error. -/
theorem shutdown_closes_all_witness :
    (loopShutdown ⟨0, LoadBalance.Random, none, none,
        some (fun _ _ => Action.None), none⟩
      ⟨0, ⟨[(5, Interest.read), (6, Interest.read)], [], false⟩,
        [(5, ⟨5, [], false, true, Action.None⟩),
         (6, ⟨6, [1], false, true, Action.Close⟩)], 2, []⟩).1.fdconns = []
    ∧ (loopShutdown ⟨0, LoadBalance.Random, none, none,
        some (fun _ _ => Action.None), none⟩
      ⟨0, ⟨[(5, Interest.read), (6, Interest.read)], [], false⟩,
        [(5, ⟨5, [], false, true, Action.None⟩),
         (6, ⟨6, [1], false, true, Action.Close⟩)], 2, []⟩).1.count = 0
    ∧ (loopShutdown ⟨0, LoadBalance.Random, none, none,
        some (fun _ _ => Action.None), none⟩
      ⟨0, ⟨[(5, Interest.read), (6, Interest.read)], [], false⟩,
        [(5, ⟨5, [], false, true, Action.None⟩),
         (6, ⟨6, [1], false, true, Action.Close⟩)], 2, []⟩).1.poll.isClosed
      = true
    ∧ (loopShutdown ⟨0, LoadBalance.Random, none, none,
        some (fun _ _ => Action.None), none⟩
      ⟨0, ⟨[(5, Interest.read), (6, Interest.read)], [], false⟩,
        [(5, ⟨5, [], false, true, Action.None⟩),
         (6, ⟨6, [1], false, true, Action.Close⟩)], 2, []⟩).2
      = [CB.closedCall 5 none, CB.closedCall 6 none] := by
  have h := shutdown_closes_all ⟨0, LoadBalance.Random, none, none,
      some (fun _ _ => Action.None), none⟩
    [⟨0, ⟨[(5, Interest.read), (6, Interest.read)], [], false⟩,
      [(5, ⟨5, [], false, true, Action.None⟩),
       (6, ⟨6, [1], false, true, Action.Close⟩)], 2, []⟩]
    (by
      intro l hl
      rcases List.mem_singleton.mp hl with rfl
      refine ⟨by decide, by decide, ?_⟩
      intro fd c hlk
      by_cases h5 : 5 = fd
      · subst h5
        simp [alLookup] at hlk
        rw [← hlk]
      · by_cases h6 : 6 = fd
        · subst h6
          simp [alLookup] at hlk
          rw [← hlk]
        · simp [alLookup, h5, h6] at hlk)
  have h2 := h.2 _ (List.mem_singleton.mpr rfl)
  exact ⟨h2.1, h2.2.1, h2.2.2.1,
    (h2.2.2.2 (fun _ _ => Action.None) rfl).1⟩

end Evio
